import Mathlib

/-!
# gelakelevel

A shallow embedding of `fetch.go` (package `gelakelevel`): the level parser `msm`,
the detail pass `getDetail` and the top-level operation `GetLevel`.

Modelling conventions

* Go strings are lists of characters (`Str`).
* A `float64` that is finite is represented by the rational number it denotes; `msm`
  only ever produces finite, non-negative values.
* A `time.Time` produced by `time.Parse` with a date-only layout is midnight UTC of a
  calendar day and is represented by that day (`Date`).
* Go maps are association lists with unique keys (`mapSet`, `mapGet`).
* The HTTP client and the HTML parser are the environment: a `Client` answers the
  `n`-th request for a URL with an error or with a `Document`, which carries the cell
  texts that the goquery selections of the source extract.
-/

namespace Gelakelevel

/-- Go strings, as sequences of characters. -/
abbrev Str := List Char

/-! ## Characters and `strings.TrimSpace` -/

/-- The class `\d` of Go regular expressions, also `isDigit` of package `time`: an ASCII digit. -/
def isDigit (c : Char) : Bool := decide ('0' ≤ c) && decide (c ≤ '9')

/-- Value of an ASCII digit (`c - '0'`). -/
def digitVal (c : Char) : Nat := c.toNat - 48

/-- White space as in `unicode.IsSpace`. -/
def isSpace (c : Char) : Bool :=
  c == '\t' || c == '\n' || c == Char.ofNat 0x0B || c == Char.ofNat 0x0C || c == '\r' || c == ' '
    || c == Char.ofNat 0x85 || c == Char.ofNat 0xA0 || c == Char.ofNat 0x1680
    || (decide (Char.ofNat 0x2000 ≤ c) && decide (c ≤ Char.ofNat 0x200A))
    || c == Char.ofNat 0x2028 || c == Char.ofNat 0x2029 || c == Char.ofNat 0x202F
    || c == Char.ofNat 0x205F || c == Char.ofNat 0x3000

/-- The function `strings.TrimSpace`: leading and trailing white space removed. -/
def trimSpace (s : Str) : Str :=
  ((s.dropWhile isSpace).reverse.dropWhile isSpace).reverse

/-! ## Regular expressions (leftmost-first backtracking semantics of package `regexp`) -/

/-- The pieces a pattern such as `(\d+\.\d+).*msm` is made of. -/
inductive Atom where
  /-- one character of a class -/
  | one (p : Char → Bool)
  /-- `c+`, greedy -/
  | many1 (p : Char → Bool)
  /-- `c*`, greedy -/
  | many0 (p : Char → Bool)
  /-- `(` of the capture group -/
  | capOpen
  /-- `)` of the capture group -/
  | capClose

/-- State of a match attempt: the text captured by group 1 so far and whether the group is open. -/
structure MState where
  cap : Str
  inCap : Bool

/-- Consume one character. -/
def MState.push (st : MState) (c : Char) : MState :=
  if st.inCap then { st with cap := st.cap ++ [c] } else st

/-- Greedy repetition of a character class followed by the continuation `k`: the longest run is
tried first, and a shorter one only when the continuation fails. -/
def greedy (p : Char → Bool) (k : MState → Str → Option Str) : MState → Str → Option Str
  | st, [] => k st []
  | st, c :: s =>
    if p c then
      match greedy p k (st.push c) s with
      | some r => some r
      | none => k st (c :: s)
    else k st (c :: s)

/-- Match a pattern at the start of the text; the result is the text of group 1 of the first
match in backtracking order. -/
def matchAtoms : List Atom → MState → Str → Option Str
  | [], st, _ => some st.cap
  | Atom.one p :: as, st, s =>
    match s with
    | [] => none
    | c :: r => if p c then matchAtoms as (st.push c) r else none
  | Atom.many1 p :: as, st, s =>
    match s with
    | [] => none
    | c :: r => if p c then greedy p (fun st1 s1 => matchAtoms as st1 s1) (st.push c) r else none
  | Atom.many0 p :: as, st, s => greedy p (fun st1 s1 => matchAtoms as st1 s1) st s
  | Atom.capOpen :: as, st, s => matchAtoms as { st with inCap := true } s
  | Atom.capClose :: as, st, s => matchAtoms as { st with inCap := false } s

/-- Group 1 of `re.FindStringSubmatch(t)`: the match starting at the leftmost possible position;
`none` is the nil result. -/
def findStringSubmatch (re : List Atom) : Str → Option Str
  | [] => matchAtoms re ⟨[], false⟩ []
  | c :: s =>
    match matchAtoms re ⟨[], false⟩ (c :: s) with
    | some g => some g
    | none => findStringSubmatch re s

/-- The pattern `(\d+\.\d+).*msm`; `.` matches every character but the newline. -/
def levelRe : List Atom :=
  [Atom.capOpen, Atom.many1 isDigit, Atom.one (fun c => c == '.'), Atom.many1 isDigit,
   Atom.capClose, Atom.many0 (fun c => c != '\n'),
   Atom.one (fun c => c == 'm'), Atom.one (fun c => c == 's'), Atom.one (fun c => c == 'm')]

/-- The call `regexp.MustCompile("[*]").ReplaceAllString(name, "")`: every `*` removed. -/
def removeStars (s : Str) : Str := s.filter (fun c => c != '*')

/-! ## `strconv.ParseFloat(s, 64)` on decimal numerals -/

/-- Value of a run of decimal digits. -/
def decimalNat (ds : Str) : Nat := ds.foldl (fun a c => 10 * a + digitVal c) 0

/-- Exponent of the unit in the last place of the `float64` next to `a / b`, biased by 1074:
the largest `n ≤ fuel` with `2 ^ (n - 1022) ≤ a / b`, and 0 (subnormal range) when there is none. -/
def ulpExp (a b : Nat) : Nat → Nat
  | 0 => 0
  | n + 1 => if b * 2 ^ (n + 1) ≤ a * 2 ^ 1022 then n + 1 else ulpExp a b n

/-- The integer nearest to `a / b`, a tie going to the even one. -/
def roundHalfEven (a b : Nat) : Nat :=
  let q := a / b
  let r := a % b
  if 2 * r < b then q else if b < 2 * r then q + 1 else if q % 2 = 0 then q else q + 1

/-- The multiple of `2 ^ (q - 1074)` nearest to `a / b`, a tie going to the even multiple;
`none` when it reaches `2 ^ 1024`, which is beyond the largest finite `float64`. -/
def roundAtExp (a b q : Nat) : Option ℚ :=
  let m := roundHalfEven (a * 2 ^ 1074) (b * 2 ^ q)
  if 2 ^ 2098 ≤ m * 2 ^ q then none else some (((m * 2 ^ q : Nat) : ℚ) / ((2 ^ 1074 : Nat) : ℚ))

/-- The `float64` nearest to `a / b` (IEEE 754 round to nearest, ties to even), as a rational;
`none` when the rounded value is beyond the largest finite `float64` (`ErrRange`). -/
def roundFloat64 (a b : Nat) : Option ℚ := roundAtExp a b (ulpExp a b 2045)

/-- The call `strconv.ParseFloat(s, 64)` for a numeral `digits.digits`, the only shape group 1 of
`levelRe` has; `none` is a non-nil error. Other numeral syntaxes are not modelled. -/
def parseFloat (s : Str) : Option ℚ :=
  match s.dropWhile isDigit with
  | '.' :: fp =>
    if (s.takeWhile isDigit).isEmpty || fp.isEmpty || !fp.all isDigit then none
    else roundFloat64 (decimalNat (s.takeWhile isDigit ++ fp)) (10 ^ fp.length)
  | _ => none

/-- The function `msm` of `fetch.go`. -/
def msm (t : Str) : ℚ :=
  match findStringSubmatch levelRe t with
  | some n1 =>
    match parseFloat n1 with
    | some nf => nf
    | none => 0
  | none => 0

/-! ## Errors -/

/-- The error values the package returns. -/
inductive Error where
  /-- an error of the HTTP client or of the HTML parser, passed on unchanged -/
  | transport (msg : Str)
  /-- a `*time.ParseError` for a layout and the offending value -/
  | parseTime (layout : Str) (value : Str)
  /-- the result of `errors.New(msg)` -/
  | new (msg : Str)
  deriving DecidableEq

/-! ## Package `time`: `time.Parse` and `Time.Format` for the two layouts of the source -/

deriving instance DecidableEq for Except

/-- A calendar day; stands for the `time.Time` at midnight UTC of that day. -/
structure Date where
  year : Nat
  month : Nat
  day : Nat
  deriving DecidableEq

/-- The function `getnum` of package `time`: a number of one or two digits, of exactly two when
`fixed`. -/
def getnum (s : Str) (fixed : Bool) : Option (Nat × Str) :=
  match s with
  | [] => none
  | [c0] => if isDigit c0 && !fixed then some (digitVal c0, []) else none
  | c0 :: c1 :: r =>
    if isDigit c0 then
      if isDigit c1 then some (digitVal c0 * 10 + digitVal c1, r)
      else if fixed then none else some (digitVal c0, c1 :: r)
    else none

/-- The function `skip` of package `time` for a layout text without blanks: the value has to start
with it. -/
def skip : Str → Str → Option Str
  | value, [] => some value
  | [], _ :: _ => none
  | v :: value, p :: pre => if v = p then skip value pre else none

/-- The case `stdLongYear` of `time.Parse`: exactly four digits. -/
def longYear (value : Str) : Option (Nat × Str) :=
  match value with
  | c0 :: c1 :: c2 :: c3 :: r =>
    if isDigit c0 && isDigit c1 && isDigit c2 && isDigit c3 then
      some (((digitVal c0 * 10 + digitVal c1) * 10 + digitVal c2) * 10 + digitVal c3, r)
    else none
  | _ => none

/-- The function `isLeap` of package `time`. -/
def isLeap (year : Nat) : Bool := year % 4 == 0 && (year % 100 != 0 || year % 400 == 0)

/-- The function `daysIn` of package `time`, for a month in 1..12. -/
def daysIn (month year : Nat) : Nat :=
  if month = 2 ∧ isLeap year then 29
  else [31, 28, 31, 30, 31, 30, 31, 31, 30, 31, 30, 31].getD (month - 1) 0

/-- The layout `"2.1.2006"`. -/
def layoutDMY : Str := ['2', '.', '1', '.', '2', '0', '0', '6']

/-- The layout `"2006-01-02"`. -/
def layoutYMD : Str := ['2', '0', '0', '6', '-', '0', '1', '-', '0', '2']

/-- The final validation of `time.Parse`: no text left, day within the month. -/
def checkDate (layout value rest : Str) (year month day : Nat) : Except Error Date :=
  if !rest.isEmpty then Except.error (Error.parseTime layout value)
  else if day < 1 ∨ daysIn month year < day then Except.error (Error.parseTime layout value)
  else Except.ok ⟨year, month, day⟩

/-- The call `time.Parse("2.1.2006", value)`: day, `.`, month, `.`, four-digit year. -/
def parseDMY (value : Str) : Except Error Date :=
  match getnum value false with
  | none => Except.error (Error.parseTime layoutDMY value)
  | some (day, v1) =>
    match skip v1 ['.'] with
    | none => Except.error (Error.parseTime layoutDMY value)
    | some v2 =>
      match getnum v2 false with
      | none => Except.error (Error.parseTime layoutDMY value)
      | some (month, v3) =>
        if month = 0 ∨ 12 < month then Except.error (Error.parseTime layoutDMY value)
        else
          match skip v3 ['.'] with
          | none => Except.error (Error.parseTime layoutDMY value)
          | some v4 =>
            match longYear v4 with
            | none => Except.error (Error.parseTime layoutDMY value)
            | some (year, v5) => checkDate layoutDMY value v5 year month day

/-- The call `time.Parse("2006-01-02", value)`: four-digit year, `-`, two-digit month, `-`,
two-digit day. -/
def parseYMD (value : Str) : Except Error Date :=
  match longYear value with
  | none => Except.error (Error.parseTime layoutYMD value)
  | some (year, v1) =>
    match skip v1 ['-'] with
    | none => Except.error (Error.parseTime layoutYMD value)
    | some v2 =>
      match getnum v2 true with
      | none => Except.error (Error.parseTime layoutYMD value)
      | some (month, v3) =>
        if month = 0 ∨ 12 < month then Except.error (Error.parseTime layoutYMD value)
        else
          match skip v3 ['-'] with
          | none => Except.error (Error.parseTime layoutYMD value)
          | some v4 =>
            match getnum v4 true with
            | none => Except.error (Error.parseTime layoutYMD value)
            | some (day, v5) => checkDate layoutYMD value v5 year month day

/-- The digit character of a number below ten (`'0' + byte(u)`). -/
def utod (u : Nat) : Char := Char.ofNat (48 + u)

/-- Decimal digits of a number, last digit first; `fuel` bounds the number of digits. -/
def decimalRev : Nat → Nat → Str
  | 0, _ => []
  | fuel + 1, u => if u < 10 then [utod u] else utod (u % 10) :: decimalRev fuel (u / 10)

/-- The function `appendInt` of package `time` for a number that is not negative: its decimal
form, padded with zeros on the left up to `width`. -/
def appendInt (x width : Nat) : Str :=
  if width = 2 ∧ x < 100 then [utod (x / 10), utod (x % 10)]
  else if width = 4 ∧ x < 10000 then
    [utod (x / 1000), utod (x / 100 % 10), utod (x / 10 % 10), utod (x % 10)]
  else
    List.replicate (width - (decimalRev (x + 1) x).length) '0' ++ (decimalRev (x + 1) x).reverse

/-- The call `d.Format("2006-01-02")`. -/
def formatYMD (d : Date) : Str :=
  appendInt d.year 4 ++ ['-'] ++ appendInt d.month 2 ++ ['-'] ++ appendInt d.day 2

/-! ## Data model of `fetch.go` -/

/-- The struct `Measure`. -/
structure Measure where
  Date : Date
  Min : ℚ
  Max : ℚ
  deriving DecidableEq

/-- A Go map with string keys: the entries, no key twice. -/
abbrev GoMap (V : Type) := List (Str × V)

/-- The assignment `m[k] = v`. -/
def mapSet {V : Type} : GoMap V → Str → V → GoMap V
  | [], k, v => [(k, v)]
  | (k1, v1) :: m, k, v => if k1 = k then (k, v) :: m else (k1, v1) :: mapSet m k v

/-- The lookup `m[k]`, `none` for a missing key. -/
def mapGet {V : Type} : GoMap V → Str → Option V
  | [], _ => none
  | (k1, v1) :: m, k => if k1 = k then some v1 else mapGet m k

/-- The keys of a map. -/
def mapKeys {V : Type} (m : GoMap V) : List Str := m.map Prod.fst

/-- The struct `Lake`. -/
structure Lake where
  Name : Str
  MaxLevel : ℚ
  Measures : GoMap Measure

/-- The type `Lakes`. -/
abbrev Lakes := GoMap Lake

/-- The constant `pageURL`. -/
def pageURL : Str := "https://www.groupe-e.ch/fr/univers-groupe-e/niveau-lacs".toList

/-- The constant `gruyereURL`. -/
def gruyereURL : Str := "https://www.groupe-e.ch/fr/univers-groupe-e/niveau-lacs/gruyere".toList

/-- The constant `schiffenenURL`. -/
def schiffenenURL : Str :=
  "https://www.groupe-e.ch/fr/univers-groupe-e/niveau-lacs/schiffenen".toList

/-! ## The environment: HTTP client and parsed documents -/

/-- What the goquery selections of the source read from a parsed page. -/
structure Document where
  /-- texts of the cells `thead tr th` of the first table -/
  header : List Str
  /-- for each `tbody tr` of the first table, the texts of its `td` cells -/
  body : List (List Str)
  /-- texts of the `td` cells of the first nested table -/
  dates : List Str
  /-- texts of the `td` cells of the nested table at index 1 -/
  mins : List Str
  /-- texts of the `td` cells of the nested table at index 2 -/
  maxs : List Str

/-- The result of `client.Get(url)` followed by `goquery.NewDocumentFromReader`, for the `n`-th
request of one call of `GetLevel`: an error of either step, or the parsed document. -/
abbrev Client := Nat → Str → Except Error Document

/-- The text `sel.Eq(i).Text()` of a selection given by the texts of its elements: empty when
there is no element `i`. -/
def eqText (cells : List Str) (i : Nat) : Str := cells.getD i []

/-! ## `getDetail` -/

/-- The message of the cardinality error. -/
def sizeMismatch : Error := Error.new "array size mismatch".toList

/-- The loop of `getDetail` from index `i` on; `rest` holds `dates[i:]`. The map is returned
together with the error, as the caller's map is written in place. -/
def detailLoop (mins maxs : List Str) : Nat → List Str → GoMap Measure → Option Error × GoMap Measure
  | _, [], mes => (none, mes)
  | i, dt :: rest, mes =>
    match parseDMY (trimSpace dt) with
    | Except.error err => (some err, mes)
    | Except.ok d =>
      detailLoop mins maxs (i + 1) rest
        (mapSet mes (formatYMD d) ⟨d, msm (mins.getD i []), msm (maxs.getD i [])⟩)

/-- The part of `getDetail` after the page has been fetched and parsed. -/
def detailOfDocument (doc : Document) (mes : GoMap Measure) : Option Error × GoMap Measure :=
  if doc.dates.length ≠ doc.mins.length ∨ doc.dates.length ≠ doc.maxs.length then
    (some sizeMismatch, mes)
  else detailLoop doc.mins doc.maxs 0 doc.dates mes

/-- The function `getDetail`, as request number `n`: the returned error (`none` for nil) and the
contents of `mes` afterwards. -/
def getDetail (client : Client) (n : Nat) (url : Str) (mes : GoMap Measure) :
    Option Error × GoMap Measure :=
  match client n url with
  | Except.error err => (some err, mes)
  | Except.ok doc => detailOfDocument doc mes

/-! ## `GetLevel` -/

/-- The name of a body row: first cell, trimmed, stars removed. -/
def rowName (item : List Str) : Str := removeStars (trimSpace (eqText item 0))

/-- The lake built from a body row before any detail pass (lines 119 to 130). -/
def summaryLake (date0 date1 : Date) (item : List Str) : Lake :=
  let maxLevel := msm (trimSpace (eqText item 1))
  let l0 := msm (trimSpace (eqText item 2))
  let l1 := msm (trimSpace (eqText item 3))
  { Name := rowName item
    MaxLevel := maxLevel
    Measures := mapSet (mapSet [] (formatYMD date0) ⟨date0, l0, l0⟩) (formatYMD date1)
      ⟨date1, l1, l1⟩ }

/-- The name that triggers the detail pass on `gruyereURL`. -/
def gruyere : Str := "La Gruyère".toList

/-- The name that triggers the detail pass on `schiffenenURL`. -/
def schiffenen : Str := "Schiffenen".toList

/-- The loop of `GetLevel` over the body rows; `n` is the number of requests made so far. -/
def rowLoop (client : Client) (date0 date1 : Date) :
    List (List Str) → Nat → Lakes → Except Error Lakes
  | [], _, result => Except.ok result
  | item :: rest, n, result =>
    let lake := summaryLake date0 date1 item
    if lake.Name = gruyere then
      match getDetail client n gruyereURL lake.Measures with
      | (some err, _) => Except.error err
      | (none, mes) =>
        rowLoop client date0 date1 rest (n + 1) (mapSet result lake.Name { lake with Measures := mes })
    else if lake.Name = schiffenen then
      match getDetail client n schiffenenURL lake.Measures with
      | (some err, _) => Except.error err
      | (none, mes) =>
        rowLoop client date0 date1 rest (n + 1) (mapSet result lake.Name { lake with Measures := mes })
    else rowLoop client date0 date1 rest n (mapSet result lake.Name lake)

/-- The part of `GetLevel` after the overview page has been fetched and parsed. -/
def levelOfDocument (client : Client) (doc : Document) : Except Error Lakes :=
  match parseDMY (trimSpace (eqText doc.header 2)) with
  | Except.error err => Except.error err
  | Except.ok date0 =>
    match parseDMY (trimSpace (eqText doc.header 3)) with
    | Except.error err => Except.error err
    | Except.ok date1 => rowLoop client date0 date1 doc.body 1 []

/-- The function `GetLevel`: `Except.error err` is the result `(nil, err)`. -/
def GetLevel (client : Client) : Except Error Lakes :=
  match client 0 pageURL with
  | Except.error err => Except.error err
  | Except.ok doc => levelOfDocument client doc

/-! ## Auxiliary notions for the statements and proofs -/

/-- The text `msm`. -/
def msmText : Str := ['m', 's', 'm']

/-- The pattern `.*msm` matches at the start of the text: `msm` occurs with no newline before
it. -/
def msmAhead : Str → Bool
  | [] => false
  | c :: s => (c != '\n' && msmAhead s) || (c == 'm' && s.take 2 == ['s', 'm'])

/-- The text of group 1 when `levelRe` matches at the start of the text: the longest run of
digits, a dot, the longest run of digits, provided `.*msm` matches what follows. -/
def groupAt (s : Str) : Option Str :=
  match s.dropWhile isDigit with
  | '.' :: r =>
    if (s.takeWhile isDigit).isEmpty || (r.takeWhile isDigit).isEmpty
        || !msmAhead (r.dropWhile isDigit) then none
    else some (s.takeWhile isDigit ++ '.' :: r.takeWhile isDigit)
  | _ => none

/-- The rational is a finite `float64` that is not negative: `m * 2 ^ e` with a mantissa `m` of at
most 53 bits and `-1074 ≤ e ≤ 971`. -/
def IsFloat64 (v : ℚ) : Prop :=
  ∃ (m : Nat) (e : Int), m < 2 ^ 53 ∧ -1074 ≤ e ∧ e ≤ 971 ∧ v = (m : ℚ) * 2 ^ e

/-- The rational number denoted by the decimal numeral `n.f`. -/
def decimalValue (n f : Str) : ℚ := (decimalNat (n ++ f) : ℚ) / ((10 ^ f.length : Nat) : ℚ)

/-- The pattern `(\d+\.\d+).*msm` matches at the start of the text in some way: a run of digits,
a dot, a run of digits, then `msm` after any characters other than a newline. -/
def LevelMatch (t : Str) : Prop :=
  ∃ d1 d2 mid post, t = d1 ++ '.' :: d2 ++ mid ++ msmText ++ post ∧ d1 ≠ [] ∧ d2 ≠ [] ∧
    (∀ c ∈ d1, isDigit c = true) ∧ (∀ c ∈ d2, isDigit c = true) ∧ '\n' ∉ mid

/-- The dates `time.Parse` can return for the layouts of the source: a year of four digits, a
month and a day of that month. -/
def ValidDate (d : Date) : Prop :=
  d.year < 10000 ∧ 1 ≤ d.month ∧ d.month ≤ 12 ∧ 1 ≤ d.day ∧ d.day ≤ daysIn d.month d.year

/-- The row starts a detail pass. -/
def isDetailRow (item : List Str) : Bool :=
  decide (rowName item = gruyere) || decide (rowName item = schiffenen)

/-- The number of requests for detail pages made while the rows are processed without error. -/
def detailCount (rows : List (List Str)) : Nat := (rows.filter isDetailRow).length

/-- The detail page of a lake name that has one. -/
def detailURL (name : Str) : Str := if name = gruyere then gruyereURL else schiffenenURL

/-! ## Example pages -/

/-- A client that answers the first request with one page and every later request with
another. -/
def twoPages (overview detail : Document) : Client :=
  fun n _ => if n = 0 then Except.ok overview else Except.ok detail

/-- An overview page with the given header dates and body rows. -/
def overviewPage (h2 h3 : Str) (rows : List (List Str)) : Document :=
  { header := [[], [], h2, h3], body := rows, dates := [], mins := [], maxs := [] }

/-- A detail page with the given cells of its three tables. -/
def detailPage (dates mins maxs : List Str) : Document :=
  { header := [], body := [], dates := dates, mins := mins, maxs := maxs }

/-- The detail page of the second scenario of the specification. -/
def exDetail : Document :=
  detailPage ["1.6.2023".toList, "2.6.2023".toList] ["700.1 msm".toList, "700.2 msm".toList]
    ["701.1 msm".toList, "701.2 msm".toList]

/-- The body row of the first scenario of the specification. -/
def exRow : List Str :=
  ["La Gruyère*".toList, "750.0 msm".toList, "700.5 msm".toList, "701.0 msm".toList]

/-- A body row of a lake that has no detail page. -/
def exPlainRow : List Str :=
  ["Morat".toList, "431.0 msm".toList, "700.5 msm".toList, "701.0 msm".toList]

/-- The overview page of the first scenario of the specification. -/
def exOverview : Document := overviewPage "1.6.2023".toList "2.6.2023".toList [exRow]

/-- The two scenarios of the specification together: overview page and detail page. -/
def exClient : Client := twoPages exOverview exDetail

/-- A detail page on which the minimum cell holds the larger value. -/
def exClientSwapped : Client :=
  twoPages exOverview
    (detailPage ["1.6.2023".toList] ["701.5 msm".toList] ["700.5 msm".toList])

/-- A detail page with two dates and one minimum value. -/
def exClientMismatch : Client :=
  twoPages exOverview
    (detailPage ["1.6.2023".toList, "2.6.2023".toList] ["700.1 msm".toList]
      ["701.1 msm".toList, "701.2 msm".toList])

/-- An overview page with the same lake in two rows and the same day in both header cells. -/
def exClientTwice : Client :=
  twoPages (overviewPage "1.6.2023".toList "1.6.2023".toList [exPlainRow, exPlainRow]) exDetail

/-! ## Parts of the pattern, for the proofs -/

/-- The continuation of the pattern after the capture group: `.*msm`. -/
def tailRe : List Atom :=
  [Atom.many0 (fun c => c != '\n'), Atom.one (fun c => c == 'm'), Atom.one (fun c => c == 's'),
   Atom.one (fun c => c == 'm')]

/-- The part of the pattern after the first run of digits. -/
def dotRe : List Atom :=
  [Atom.one (fun c => c == '.'), Atom.many1 isDigit, Atom.capClose] ++ tailRe

/-! # Theorems -/

/-! ## The regular expression of `msm` -/

theorem push_closed (st : MState) (h : st.inCap = false) (c : Char) : st.push c = st := by
  simp [MState.push, h]

theorem isDigit_ne_newline (c : Char) (h : isDigit c = true) : (c != '\n') = true := by
  rcases eq_or_ne c '\n' with rfl | hne
  · exact absurd h (by decide)
  · simpa using hne

theorem isDigit_ne_m (c : Char) (h : isDigit c = true) : (c == 'm') = false := by
  rcases eq_or_ne c 'm' with rfl | hne
  · exact absurd h (by decide)
  · simpa using hne

theorem isDigit_ne_dot (c : Char) (h : isDigit c = true) : (c == '.') = false := by
  rcases eq_or_ne c '.' with rfl | hne
  · exact absurd h (by decide)
  · simpa using hne

theorem msmAhead_digit (c : Char) (s : Str) (h : isDigit c = true) :
    msmAhead (c :: s) = msmAhead s := by
  simp [msmAhead, isDigit_ne_newline c h, isDigit_ne_m c h]

theorem msmAhead_dropDigits (s : Str) : msmAhead (s.dropWhile isDigit) = msmAhead s := by
  induction s with
  | nil => rfl
  | cons c s ih =>
    by_cases h : isDigit c = true
    · rw [List.dropWhile_cons_of_pos h, ih, msmAhead_digit c s h]
    · rw [List.dropWhile_cons_of_neg h]

/-- The three literal characters at the end of the pattern. -/
theorem matchAtoms_msm (st : MState) (s : Str) (h : st.inCap = false) :
    matchAtoms [Atom.one (fun c => c == 'm'), Atom.one (fun c => c == 's'),
      Atom.one (fun c => c == 'm')] st s
      = if (s.take 3 == ['m', 's', 'm']) = true then some st.cap else none := by
  match s with
  | [] => simp [matchAtoms]
  | [a] => by_cases ha : a = 'm' <;> simp [matchAtoms, ha]
  | [a, b] => by_cases ha : a = 'm' <;> by_cases hb : b = 's' <;> simp [matchAtoms, ha, hb]
  | a :: b :: c :: r =>
    by_cases ha : a = 'm' <;> by_cases hb : b = 's' <;> by_cases hc : c = 'm' <;>
      simp [matchAtoms, ha, hb, hc, push_closed, h]


theorem matchAtoms_many0 (p : Char → Bool) (as : List Atom) (st : MState) (s : Str) :
    matchAtoms (Atom.many0 p :: as) st s = greedy p (matchAtoms as) st s := by
  rw [matchAtoms]

theorem matchAtoms_many1_cons (p : Char → Bool) (as : List Atom) (st : MState) (c : Char)
    (s : Str) :
    matchAtoms (Atom.many1 p :: as) st (c :: s)
      = if p c = true then greedy p (matchAtoms as) (st.push c) s else none := by
  rw [matchAtoms]

theorem matchAtoms_many1_nil (p : Char → Bool) (as : List Atom) (st : MState) :
    matchAtoms (Atom.many1 p :: as) st [] = none := by
  rw [matchAtoms]

theorem matchAtoms_one_cons (p : Char → Bool) (as : List Atom) (st : MState) (c : Char)
    (s : Str) :
    matchAtoms (Atom.one p :: as) st (c :: s)
      = if p c = true then matchAtoms as (st.push c) s else none := by
  rw [matchAtoms]

theorem matchAtoms_one_nil (p : Char → Bool) (as : List Atom) (st : MState) :
    matchAtoms (Atom.one p :: as) st [] = none := by
  rw [matchAtoms]

theorem matchAtoms_capOpen (as : List Atom) (st : MState) (s : Str) :
    matchAtoms (Atom.capOpen :: as) st s = matchAtoms as { st with inCap := true } s := by
  rw [matchAtoms]

theorem matchAtoms_capClose (as : List Atom) (st : MState) (s : Str) :
    matchAtoms (Atom.capClose :: as) st s = matchAtoms as { st with inCap := false } s := by
  rw [matchAtoms]

theorem greedy_nil (p : Char → Bool) (k : MState → Str → Option Str) (st : MState) :
    greedy p k st [] = k st [] := by
  rw [greedy]

theorem greedy_cons (p : Char → Bool) (k : MState → Str → Option Str) (st : MState) (c : Char)
    (s : Str) :
    greedy p k st (c :: s)
      = if p c = true then (greedy p k (st.push c) s).or (k st (c :: s)) else k st (c :: s) := by
  rw [greedy]
  split
  · cases greedy p k (st.push c) s <;> rfl
  · rfl

theorem msmAhead_cons (c : Char) (s : Str) :
    msmAhead (c :: s) = ((c != '\n' && msmAhead s) || ((c :: s).take 3 == ['m', 's', 'm'])) := by
  have : ((c :: s).take 3 == ['m', 's', 'm']) = (c == 'm' && s.take 2 == ['s', 'm']) := by
    simp [List.take_succ_cons]
  rw [this]; rfl

theorem matchAtoms_tail (st : MState) (s : Str) (h : st.inCap = false) :
    matchAtoms tailRe st s = if msmAhead s = true then some st.cap else none := by
  unfold tailRe
  rw [matchAtoms_many0]
  induction s with
  | nil => rw [greedy_nil, matchAtoms_msm st [] h]; rfl
  | cons c s ih =>
    rw [greedy_cons, push_closed st h, ih, matchAtoms_msm st (c :: s) h, msmAhead_cons]
    by_cases h1 : (c != '\n') = true <;> by_cases h2 : msmAhead s = true <;>
      by_cases h3 : ((c :: s).take 3 == ['m', 's', 'm']) = true <;> simp [h1, h2, h3]

theorem push_open (st : MState) (h : st.inCap = true) (c : Char) :
    st.push c = ⟨st.cap ++ [c], true⟩ := by
  simp [MState.push, h]

theorem matchAtoms_close_tail (st : MState) (s : Str) :
    matchAtoms (Atom.capClose :: tailRe) st s
      = if msmAhead s = true then some st.cap else none := by
  rw [matchAtoms_capClose, matchAtoms_tail _ _ rfl]

/-- The second run of digits: the longest run is kept, as a shorter one leaves a digit in front
of `.*msm`, which matches there only if it matches after the whole run. -/
theorem greedy_digits_tail (cap : Str) (r : Str) :
    greedy isDigit (matchAtoms (Atom.capClose :: tailRe)) ⟨cap, true⟩ r
      = if msmAhead (r.dropWhile isDigit) = true then some (cap ++ r.takeWhile isDigit)
        else none := by
  induction r generalizing cap with
  | nil => rw [greedy_nil, matchAtoms_close_tail]; simp
  | cons c r ih =>
    rw [greedy_cons, push_open _ rfl, ih, matchAtoms_close_tail]
    by_cases hc : isDigit c = true
    · rw [List.dropWhile_cons_of_pos hc, List.takeWhile_cons_of_pos hc, msmAhead_digit c r hc,
        msmAhead_dropDigits]
      by_cases h2 : msmAhead r = true <;> simp [hc, h2]
    · rw [List.dropWhile_cons_of_neg hc, List.takeWhile_cons_of_neg hc]
      simp [hc]

/-- The first run of digits: the longest run is the only one a dot can follow. -/
theorem greedy_digits_commit (k : MState → Str → Option Str)
    (hk : ∀ st c s, isDigit c = true → k st (c :: s) = none) (cap : Str) (r : Str) :
    greedy isDigit k ⟨cap, true⟩ r
      = k ⟨cap ++ r.takeWhile isDigit, true⟩ (r.dropWhile isDigit) := by
  induction r generalizing cap with
  | nil => rw [greedy_nil]; simp
  | cons c r ih =>
    rw [greedy_cons, push_open _ rfl, ih]
    by_cases hc : isDigit c = true
    · rw [List.dropWhile_cons_of_pos hc, List.takeWhile_cons_of_pos hc, hk _ c r hc]
      simp [hc]
    · rw [List.dropWhile_cons_of_neg hc, List.takeWhile_cons_of_neg hc]
      simp [hc]

theorem matchAtoms_dot_digit (st : MState) (c : Char) (s : Str) (h : isDigit c = true) :
    matchAtoms dotRe st (c :: s) = none := by
  unfold dotRe
  simp only [List.cons_append, List.nil_append]
  rw [matchAtoms_one_cons]
  simp [isDigit_ne_dot c h]

theorem matchAtoms_dot (cap : Str) (s : Str) :
    matchAtoms dotRe ⟨cap, true⟩ s
      = match s with
        | '.' :: r =>
          if (r.takeWhile isDigit).isEmpty || !msmAhead (r.dropWhile isDigit) then none
          else some (cap ++ '.' :: r.takeWhile isDigit)
        | _ => none := by
  unfold dotRe
  simp only [List.cons_append, List.nil_append]
  match s with
  | [] => rw [matchAtoms_one_nil]
  | c :: r =>
    rw [matchAtoms_one_cons]
    by_cases hc : c = '.'
    · subst hc
      simp only [beq_self_eq_true, if_true]
      rw [push_open _ rfl]
      match r with
      | [] => rw [matchAtoms_many1_nil]; simp
      | d :: r2 =>
        rw [matchAtoms_many1_cons]
        by_cases hd : isDigit d = true
        · rw [if_pos hd, push_open _ rfl, greedy_digits_tail, List.takeWhile_cons_of_pos hd,
            List.dropWhile_cons_of_pos hd]
          by_cases h2 : msmAhead (List.dropWhile isDigit r2) = true <;> simp [h2]
        · rw [if_neg hd, List.takeWhile_cons_of_neg hd]
          simp
    · have : (c == '.') = false := by simpa using hc
      rw [this, if_neg (by decide)]
      split
      · rename_i heq; cases heq; exact absurd rfl hc
      · rfl

/-- One match attempt of `levelRe` yields `groupAt`. -/
theorem matchAtoms_levelRe (s : Str) : matchAtoms levelRe ⟨[], false⟩ s = groupAt s := by
  have hre : levelRe = Atom.capOpen :: Atom.many1 isDigit :: dotRe := rfl
  rw [hre, matchAtoms_capOpen]
  unfold groupAt
  match s with
  | [] => rw [matchAtoms_many1_nil]; rfl
  | c :: r =>
    rw [matchAtoms_many1_cons]
    by_cases hc : isDigit c = true
    · rw [if_pos hc, push_open _ rfl,
        greedy_digits_commit _ (fun st c s h => matchAtoms_dot_digit st c s h), matchAtoms_dot,
        List.takeWhile_cons_of_pos hc, List.dropWhile_cons_of_pos hc]
      cases hd : List.dropWhile isDigit r with
      | nil => rfl
      | cons x r2 =>
        by_cases hx : x = '.'
        · subst hx
          simp
        · simp
          split
          · rename_i heq; cases heq; exact absurd rfl hx
          · split
            · rename_i heq; cases heq; exact absurd rfl hx
            · rfl
    · rw [if_neg hc, List.takeWhile_cons_of_neg hc, List.dropWhile_cons_of_neg hc]
      split <;> simp

theorem findStringSubmatch_nil : findStringSubmatch levelRe [] = none := by
  rw [findStringSubmatch, matchAtoms_levelRe]; rfl

theorem findStringSubmatch_cons (c : Char) (s : Str) :
    findStringSubmatch levelRe (c :: s)
      = (groupAt (c :: s)).or (findStringSubmatch levelRe s) := by
  rw [findStringSubmatch, matchAtoms_levelRe]
  cases groupAt (c :: s) <;> rfl

theorem groupAt_nil : groupAt [] = none := rfl

theorem takeWhile_run_append (d r : Str) (hd : ∀ c ∈ d, isDigit c = true) :
    (d ++ r).takeWhile isDigit = d ++ r.takeWhile isDigit := by
  induction d with
  | nil => rfl
  | cons c d ih =>
    rw [List.cons_append, List.takeWhile_cons_of_pos (hd c (List.mem_cons_self _ _)),
      ih (fun x hx => hd x (List.mem_cons_of_mem _ hx)), List.cons_append]

theorem dropWhile_run_append (d r : Str) (hd : ∀ c ∈ d, isDigit c = true) :
    (d ++ r).dropWhile isDigit = r.dropWhile isDigit := by
  induction d with
  | nil => rfl
  | cons c d ih =>
    rw [List.cons_append, List.dropWhile_cons_of_pos (hd c (List.mem_cons_self _ _)),
      ih (fun x hx => hd x (List.mem_cons_of_mem _ hx))]

theorem takeWhile_all_digits (s : Str) : ∀ c ∈ s.takeWhile isDigit, isDigit c = true := by
  intro c hc
  exact (List.mem_takeWhile_imp hc)

theorem dropWhile_head_not_digit (s : Str) :
    ∀ c r, s.dropWhile isDigit = c :: r → isDigit c = false := by
  induction s with
  | nil => intro c r h; cases h
  | cons x s ih =>
    intro c r h
    by_cases hx : isDigit x = true
    · rw [List.dropWhile_cons_of_pos hx] at h; exact ih c r h
    · rw [List.dropWhile_cons_of_neg hx] at h
      cases h
      simpa using hx

theorem msmAhead_iff (s : Str) :
    msmAhead s = true ↔ ∃ mid post, s = mid ++ msmText ++ post ∧ '\n' ∉ mid := by
  induction s with
  | nil =>
    constructor
    · intro h; cases h
    · rintro ⟨mid, post, h, -⟩
      have := congrArg List.length h
      simp [msmText] at this
      omega
  | cons c s ih =>
    rw [msmAhead_cons]
    constructor
    · intro h
      rcases Bool.or_eq_true _ _ |>.mp h with h1 | h1
      · rcases Bool.and_eq_true _ _ |>.mp h1 with ⟨hc, hs⟩
        obtain ⟨mid, post, rfl, hmid⟩ := ih.mp hs
        refine ⟨c :: mid, post, rfl, ?_⟩
        intro hmem
        rcases List.mem_cons.mp hmem with h2 | h2
        · subst h2; simp at hc
        · exact hmid h2
      · refine ⟨[], (c :: s).drop 3, ?_, by simp⟩
        have h3 : (c :: s).take 3 = ['m', 's', 'm'] := by simpa using h1
        calc c :: s = (c :: s).take 3 ++ (c :: s).drop 3 := (List.take_append_drop 3 _).symm
          _ = [] ++ msmText ++ (c :: s).drop 3 := by rw [h3]; rfl
    · rintro ⟨mid, post, h, hmid⟩
      cases mid with
      | nil =>
        have : (c :: s).take 3 = ['m', 's', 'm'] := by rw [h]; rfl
        simp [this]
      | cons x mid =>
        simp only [List.cons_append] at h
        injection h with h1 h2
        subst h1
        have hs : msmAhead s = true :=
          ih.mpr ⟨mid, post, h2, fun hm => hmid (List.mem_cons_of_mem _ hm)⟩
        have hc : (c != '\n') = true := by
          have : c ≠ '\n' := fun e => hmid (e ▸ List.mem_cons_self _ _)
          simpa using this
        simp [hs, hc]

/-- What `groupAt` returns is a maximal run of digits, a dot and a maximal run of digits, followed
by text in which `msm` occurs before any newline. -/
theorem groupAt_some (t g : Str) (h : groupAt t = some g) :
    ∃ d1 d2 rest, t = d1 ++ '.' :: d2 ++ rest ∧ g = d1 ++ '.' :: d2 ∧ d1 ≠ [] ∧ d2 ≠ [] ∧
      (∀ c ∈ d1, isDigit c = true) ∧ (∀ c ∈ d2, isDigit c = true) ∧
      (∀ c r, rest = c :: r → isDigit c = false) ∧ msmAhead rest = true := by
  unfold groupAt at h
  split at h
  · rename_i r hr
    split at h
    · cases h
    · rename_i hcond
      simp only [Bool.or_eq_true, not_or, Bool.not_eq_true, List.isEmpty_eq_true,
        Bool.not_eq_true'] at hcond
      obtain ⟨⟨h1, h2⟩, h3⟩ := hcond
      injection h with h
      refine ⟨t.takeWhile isDigit, r.takeWhile isDigit, r.dropWhile isDigit, ?_, h.symm, ?_, ?_,
        takeWhile_all_digits t, takeWhile_all_digits r, dropWhile_head_not_digit r, ?_⟩
      · calc t = t.takeWhile isDigit ++ t.dropWhile isDigit :=
              (List.takeWhile_append_dropWhile _ _).symm
          _ = t.takeWhile isDigit ++ '.' :: r := by rw [hr]
          _ = t.takeWhile isDigit ++ '.' :: (r.takeWhile isDigit ++ r.dropWhile isDigit) := by
              rw [List.takeWhile_append_dropWhile]
          _ = _ := by simp
      · simpa using h1
      · simpa using h2
      · simpa using h3
  · cases h

/-- Whenever the pattern matches at the start of a text in any way, `groupAt` succeeds. -/
theorem groupAt_isSome_of_match (d1 d2 mid post : Str) (h1 : d1 ≠ []) (h2 : d2 ≠ [])
    (hd1 : ∀ c ∈ d1, isDigit c = true) (hd2 : ∀ c ∈ d2, isDigit c = true)
    (hmid : '\n' ∉ mid) :
    ∃ g, groupAt (d1 ++ '.' :: d2 ++ mid ++ msmText ++ post) = some g := by
  have e : d1 ++ '.' :: d2 ++ mid ++ msmText ++ post
      = d1 ++ '.' :: (d2 ++ (mid ++ msmText ++ post)) := by simp
  have hdot : isDigit '.' = false := by decide
  have ht : (d1 ++ '.' :: (d2 ++ (mid ++ msmText ++ post))).takeWhile isDigit = d1 := by
    rw [takeWhile_run_append _ _ hd1, List.takeWhile_cons_of_neg (by simp [hdot])]; simp
  have hdr : (d1 ++ '.' :: (d2 ++ (mid ++ msmText ++ post))).dropWhile isDigit
      = '.' :: (d2 ++ (mid ++ msmText ++ post)) := by
    rw [dropWhile_run_append _ _ hd1, List.dropWhile_cons_of_neg (by simp [hdot])]
  have ht2 : (d2 ++ (mid ++ msmText ++ post)).takeWhile isDigit ≠ [] := by
    rw [takeWhile_run_append _ _ hd2]
    intro h; exact h2 (List.append_eq_nil.mp h).1
  have hm : msmAhead ((d2 ++ (mid ++ msmText ++ post)).dropWhile isDigit) = true := by
    rw [dropWhile_run_append _ _ hd2, msmAhead_dropDigits]
    exact (msmAhead_iff _).mpr ⟨mid, post, rfl, hmid⟩
  rw [e]
  unfold groupAt
  rw [hdr]
  simp only [ht]
  refine ⟨d1 ++ '.' :: List.takeWhile isDigit (d2 ++ (mid ++ msmText ++ post)), ?_⟩
  rw [if_neg]
  intro hcond
  rcases (Bool.or_eq_true _ _).mp hcond with hab | hc
  · rcases (Bool.or_eq_true _ _).mp hab with ha | hb
    · exact h1 (List.isEmpty_iff.mp ha)
    · exact ht2 (List.isEmpty_iff.mp hb)
  · rw [hm] at hc; cases hc

/-- A successful search: the group comes from the leftmost position at which a match attempt
succeeds. -/
theorem findStringSubmatch_some (s g : Str) (h : findStringSubmatch levelRe s = some g) :
    ∃ pre t, s = pre ++ t ∧ groupAt t = some g ∧
      ∀ pre1 t1, s = pre1 ++ t1 → pre1.length < pre.length → groupAt t1 = none := by
  induction s with
  | nil => rw [findStringSubmatch_nil] at h; cases h
  | cons c s ih =>
    rw [findStringSubmatch_cons] at h
    cases hg : groupAt (c :: s) with
    | some g1 =>
      rw [hg] at h
      refine ⟨[], c :: s, rfl, ?_, ?_⟩
      · rw [hg]; exact h
      · intro pre1 t1 _ hlen; cases hlen
    | none =>
      rw [hg] at h
      obtain ⟨pre, t, hs, hgt, hleft⟩ := ih h
      refine ⟨c :: pre, t, by rw [hs]; rfl, hgt, ?_⟩
      intro pre1 t1 h1 hlen
      cases pre1 with
      | nil =>
        simp only [List.nil_append] at h1
        rw [← h1]; exact hg
      | cons x pre1 =>
        simp only [List.cons_append] at h1
        injection h1 with _ h1
        exact hleft pre1 t1 h1 (by simpa using hlen)

/-- A failed search: no match attempt succeeds at any position. -/
theorem findStringSubmatch_none (s : Str) (h : findStringSubmatch levelRe s = none) :
    ∀ pre t, s = pre ++ t → groupAt t = none := by
  induction s with
  | nil =>
    intro pre t h1
    have : t = [] := (List.append_eq_nil.mp h1.symm).2
    rw [this]; rfl
  | cons c s ih =>
    rw [findStringSubmatch_cons] at h
    cases hg : groupAt (c :: s) with
    | some g1 => rw [hg] at h; cases h
    | none =>
      rw [hg] at h
      intro pre t h1
      cases pre with
      | nil =>
        simp only [List.nil_append] at h1
        rw [← h1]; exact hg
      | cons x pre =>
        simp only [List.cons_append] at h1
        injection h1 with _ h1
        exact ih h pre t h1

/-- A search that starts on a matching position returns its group. -/
theorem findStringSubmatch_of_groupAt (s g : Str) (h : groupAt s = some g) :
    findStringSubmatch levelRe s = some g := by
  cases s with
  | nil => cases h
  | cons c s => rw [findStringSubmatch_cons, h]; rfl

/-! ## Rounding to `float64` -/

theorem two_pow_split (x y z : Nat) (h : x + y = z) : 2 ^ x * 2 ^ y = 2 ^ z := by
  subst h; exact (pow_add 2 x y).symm

theorem two_pow_mono (x y : Nat) (h : x ≤ y) : 2 ^ x ≤ 2 ^ y :=
  Nat.pow_le_pow_right (by norm_num) h

theorem ulpExp_le (a b : Nat) (n : Nat) : ulpExp a b n ≤ n := by
  induction n with
  | zero => simp [ulpExp]
  | succ n ih =>
    rw [ulpExp]
    split
    · exact le_refl _
    · exact Nat.le_succ_of_le ih

theorem ulpExp_spec (a b : Nat) (n : Nat) :
    ulpExp a b n = 0 ∨ b * 2 ^ ulpExp a b n ≤ a * 2 ^ 1022 := by
  induction n with
  | zero => left; simp [ulpExp]
  | succ n ih =>
    rw [ulpExp]
    split
    · right; assumption
    · exact ih

theorem ulpExp_top (a b : Nat) (n : Nat) (h : b * 2 ^ (n + 1) ≤ a * 2 ^ 1022) :
    ulpExp a b (n + 1) = n + 1 := by
  rw [ulpExp, if_pos h]

theorem roundHalfEven_of_dvd (a b : Nat) (hb : 0 < b) (h : b ∣ a) : roundHalfEven a b = a / b := by
  unfold roundHalfEven
  have : a % b = 0 := Nat.mod_eq_zero_of_dvd h
  simp [this, hb]

theorem div_le_roundHalfEven (a b : Nat) : a / b ≤ roundHalfEven a b := by
  unfold roundHalfEven
  simp only
  split
  · exact le_refl _
  · split
    · exact Nat.le_succ _
    · split
      · exact le_refl _
      · exact Nat.le_succ _

theorem roundAtExp_exact (a b m k q : Nat) (hb : 0 < b) (hm : m < 2 ^ 53) (hk : k ≤ 2045)
    (h : a * 2 ^ 1074 = m * 2 ^ k * b) (hq : q ≤ k) :
    roundAtExp a b q = some ((a : ℚ) / (b : ℚ)) := by
  have hdvd : b * 2 ^ q ∣ a * 2 ^ 1074 := by
    rw [h]
    obtain ⟨d, hd⟩ := Nat.exists_eq_add_of_le hq
    refine ⟨m * 2 ^ d, ?_⟩
    rw [hd, pow_add]; ring
  have hpos : 0 < b * 2 ^ q := by positivity
  have hM : a * 2 ^ 1074 / (b * 2 ^ q) * 2 ^ q < 2 ^ 2098 := by
    have e : a * 2 ^ 1074 / (b * 2 ^ q) * (b * 2 ^ q) = m * 2 ^ k * b := by
      rw [Nat.div_mul_cancel hdvd, h]
    have e2 : a * 2 ^ 1074 / (b * 2 ^ q) * 2 ^ q * b = m * 2 ^ k * b := by
      rw [← e]; ring
    have e3 : a * 2 ^ 1074 / (b * 2 ^ q) * 2 ^ q = m * 2 ^ k :=
      Nat.eq_of_mul_eq_mul_right hb e2
    rw [e3]
    calc m * 2 ^ k < 2 ^ 53 * 2 ^ k := Nat.mul_lt_mul_of_pos_right hm (by positivity)
      _ ≤ 2 ^ 53 * 2 ^ 2045 := Nat.mul_le_mul_left _ (two_pow_mono k 2045 hk)
      _ = 2 ^ 2098 := two_pow_split 53 2045 2098 (by norm_num)
  unfold roundAtExp
  simp only
  rw [roundHalfEven_of_dvd _ _ hpos hdvd, if_neg (not_le.mpr hM)]
  refine congrArg some ?_
  have hbq : (b : ℚ) ≠ 0 := by exact_mod_cast hb.ne'
  have e : ((a * 2 ^ 1074 / (b * 2 ^ q) * 2 ^ q : Nat) : ℚ) * (b : ℚ)
      = (a : ℚ) * ((2 ^ 1074 : Nat) : ℚ) := by
    have : a * 2 ^ 1074 / (b * 2 ^ q) * 2 ^ q * b = a * 2 ^ 1074 := by
      rw [mul_assoc, mul_comm (2 ^ q) b, Nat.div_mul_cancel hdvd]
    exact_mod_cast this
  have h2 : ((2 ^ 1074 : Nat) : ℚ) ≠ 0 := by positivity
  rw [div_eq_div_iff h2 hbq]
  exact e

/-- A decimal that is a `float64` (`m * 2 ^ (k - 1074)` with `m < 2 ^ 53` and `k ≤ 2045`) is
returned unchanged. -/
theorem roundFloat64_exact (a b m k : Nat) (hb : 0 < b) (hm : m < 2 ^ 53) (hk : k ≤ 2045)
    (h : a * 2 ^ 1074 = m * 2 ^ k * b) :
    roundFloat64 a b = some ((a : ℚ) / (b : ℚ)) := by
  obtain ⟨q, hqdef⟩ : ∃ q, q = ulpExp a b 2045 := ⟨_, rfl⟩
  have hq : q ≤ k := by
    rcases ulpExp_spec a b 2045 with h0 | h1
    · rw [hqdef, h0]; exact Nat.zero_le _
    · rw [← hqdef] at h1
      by_contra hlt
      push_neg at hlt
      have h2 : b * 2 ^ (k + 1) ≤ b * 2 ^ q :=
        Nat.mul_le_mul_left _ (two_pow_mono _ _ hlt)
      have h3 : b * 2 ^ (k + 1) * 2 ^ 52 ≤ a * 2 ^ 1022 * 2 ^ 52 :=
        Nat.mul_le_mul_right _ (le_trans h2 h1)
      have h4 : a * 2 ^ 1022 * 2 ^ 52 = m * 2 ^ k * b := by
        rw [← h, mul_assoc, ← pow_add]
      rw [h4] at h3
      have h5 : m * 2 ^ k * b < 2 ^ 53 * 2 ^ k * b := by
        apply Nat.mul_lt_mul_of_pos_right _ hb
        exact Nat.mul_lt_mul_of_pos_right hm (by positivity)
      have h6 : b * 2 ^ (k + 1) * 2 ^ 52 = 2 ^ 53 * 2 ^ k * b := by ring
      omega
  unfold roundFloat64
  rw [← hqdef]
  exact roundAtExp_exact a b m k q hb hm hk h hq

/-- A decimal of at least `2 ^ 1024` is out of range. -/
theorem roundFloat64_overflow (a b : Nat) (hb : 0 < b) (h : 2 ^ 1024 * b ≤ a) :
    roundFloat64 a b = none := by
  have hq : ulpExp a b 2045 = 2045 := by
    apply ulpExp_top a b 2044
    calc b * 2 ^ (2044 + 1) ≤ b * 2 ^ 2046 :=
          Nat.mul_le_mul_left _ (two_pow_mono (2044 + 1) 2046 (by norm_num))
      _ = b * 2 ^ 1024 * 2 ^ 1022 := by
          rw [mul_assoc, two_pow_split 1024 1022 2046 (by norm_num)]
      _ ≤ a * 2 ^ 1022 := Nat.mul_le_mul_right _ (by rw [mul_comm]; exact h)
  unfold roundFloat64
  rw [hq]
  unfold roundAtExp
  simp only
  rw [if_pos]
  · have h1 : 2 ^ 53 ≤ a * 2 ^ 1074 / (b * 2 ^ 2045) := by
      rw [Nat.le_div_iff_mul_le (Nat.mul_pos hb (pow_pos (by norm_num) _))]
      calc 2 ^ 53 * (b * 2 ^ 2045) = 2 ^ 1024 * b * 2 ^ 1074 := by ring
        _ ≤ a * 2 ^ 1074 := Nat.mul_le_mul_right _ h
    calc 2 ^ 2098 = 2 ^ 53 * 2 ^ 2045 := (two_pow_split 53 2045 2098 (by norm_num)).symm
      _ ≤ roundHalfEven (a * 2 ^ 1074) (b * 2 ^ 2045) * 2 ^ 2045 :=
        Nat.mul_le_mul_right _ (le_trans h1 (div_le_roundHalfEven _ _))

theorem roundFloat64_nonneg (a b : Nat) (v : ℚ) (h : roundFloat64 a b = some v) : 0 ≤ v := by
  unfold roundFloat64 roundAtExp at h
  simp only at h
  split at h
  · cases h
  · injection h with h
    rw [← h]
    positivity

/-! ## Error of the rounding -/

theorem roundHalfEven_cases (A B : Nat) :
    roundHalfEven A B = A / B ∨ roundHalfEven A B = A / B + 1 := by
  unfold roundHalfEven
  simp only
  split
  · exact Or.inl rfl
  · split
    · exact Or.inr rfl
    · split
      · exact Or.inl rfl
      · exact Or.inr rfl

/-- The rounded quotient is within one half of the quotient. -/
theorem roundHalfEven_error (A B : Nat) (hB : 0 < B) :
    2 * (roundHalfEven A B * B) ≤ 2 * A + B ∧ 2 * A ≤ 2 * (roundHalfEven A B * B) + B := by
  have hdm : B * (A / B) + A % B = A := Nat.div_add_mod A B
  have hr : A % B < B := Nat.mod_lt A hB
  have hcomm : A / B * B = B * (A / B) := Nat.mul_comm _ _
  unfold roundHalfEven
  simp only
  split
  · rw [hcomm]; omega
  · split
    · rw [Nat.add_mul, hcomm]; omega
    · split
      · rw [hcomm]; omega
      · rw [Nat.add_mul, hcomm]; omega

theorem roundHalfEven_unfold (A B : Nat) :
    roundHalfEven A B
      = if 2 * (A % B) < B then A / B
        else if B < 2 * (A % B) then A / B + 1
        else if A / B % 2 = 0 then A / B else A / B + 1 := rfl

/-- A quotient of at least `K - 1/2`, with `K` even, is rounded to at least `K`. -/
theorem le_roundHalfEven (A B K : Nat) (hB : 0 < B) (hK : K % 2 = 0)
    (h : (2 * K - 1) * B ≤ 2 * A) : K ≤ roundHalfEven A B := by
  have hdm : B * (A / B) + A % B = A := Nat.div_add_mod A B
  have hr : A % B < B := Nat.mod_lt A hB
  rw [roundHalfEven_unfold]
  generalize A / B = qd at *
  generalize A % B = r at *
  by_cases hq : K ≤ qd
  · split
    · exact hq
    · split
      · omega
      · split
        · exact hq
        · omega
  · push_neg at hq
    have hK1 : 1 ≤ K := by omega
    have e1 : (2 * K - 1) * B = 2 * (B * K) - B := by
      rw [Nat.sub_mul, Nat.one_mul, Nat.mul_assoc, Nat.mul_comm K B]
    have hBK : B ≤ B * K := Nat.le_mul_of_pos_right B hK1
    have hmono : B * (qd + 1) ≤ B * K := Nat.mul_le_mul_left B hq
    rw [Nat.mul_add, Nat.mul_one] at hmono
    rw [e1] at h
    have hqK : qd + 1 = K := by
      by_contra hne
      have h2 : qd + 2 ≤ K := by omega
      have hmono2 : B * (qd + 2) ≤ B * K := Nat.mul_le_mul_left B h2
      rw [Nat.mul_add] at hmono2
      omega
    have h2r : B ≤ 2 * r := by omega
    rw [if_neg (by omega)]
    split
    · omega
    · rw [if_neg (by omega)]
      omega

theorem roundHalfEven_le (A B K : Nat) (hB : 0 < B) (h : A < B * K) :
    roundHalfEven A B ≤ K := by
  have hlt : A / B < K := (Nat.div_lt_iff_lt_mul hB).mpr (by rw [Nat.mul_comm]; exact h)
  rcases roundHalfEven_cases A B with e | e <;> omega

/-- The exponent found is the largest one. -/
theorem ulpExp_max (a b : Nat) (n : Nat) (h : ulpExp a b n < n) :
    a * 2 ^ 1022 < b * 2 ^ (ulpExp a b n + 1) := by
  induction n with
  | zero => cases h
  | succ n ih =>
    rw [ulpExp] at h ⊢
    split
    · rename_i hc
      rw [if_pos hc] at h
      exact absurd h (lt_irrefl _)
    · rename_i hc
      rw [if_neg hc] at h
      by_cases hlt : ulpExp a b n < n
      · exact ih hlt
      · have hle := ulpExp_le a b n
        have e : ulpExp a b n = n := by omega
        rw [e]
        exact not_le.mp hc

theorem two_pow_pos (x : Nat) : 0 < 2 ^ x := pow_pos (by norm_num) x

theorem two_pow_strict (x y : Nat) (h : x < y) : 2 ^ x < 2 ^ y :=
  Nat.pow_lt_pow_right (by norm_num) h

theorem two_pow_double (x y : Nat) (h : x + 1 = y) : 2 ^ x * 2 = 2 ^ y := by
  subst h; exact (pow_succ 2 x).symm

/-- Below the top exponent the rounded mantissa has at most 54 bits. -/
theorem mantissa_le (a b q : Nat) (hb : 0 < b) (h : a * 2 ^ 1022 < b * 2 ^ (q + 1)) :
    roundHalfEven (a * 2 ^ 1074) (b * 2 ^ q) ≤ 2 ^ 53 := by
  apply roundHalfEven_le _ _ _ (Nat.mul_pos hb (two_pow_pos q))
  have e1 : a * 2 ^ 1074 = a * 2 ^ 1022 * 2 ^ 52 := by
    rw [Nat.mul_assoc, two_pow_split 1022 52 1074 (by norm_num)]
  have e2 : b * 2 ^ q * 2 ^ 53 = b * 2 ^ (q + 1) * 2 ^ 52 := by
    rw [Nat.mul_assoc, Nat.mul_assoc, two_pow_split q 53 (q + 53) rfl,
      two_pow_split (q + 1) 52 (q + 53) (by omega)]
  rw [e1, e2]
  exact Nat.mul_lt_mul_of_pos_right h (two_pow_pos 52)

/-- The range error of `strconv.ParseFloat`: exactly from `2 ^ 1024 - 2 ^ 970` on, the midpoint
between the largest finite `float64` and `2 ^ 1024`. -/
theorem roundFloat64_none_iff (a b : Nat) (hb : 0 < b) :
    roundFloat64 a b = none ↔ (2 ^ 54 - 1) * 2 ^ 970 * b ≤ a := by
  obtain ⟨q, hqdef⟩ : ∃ q, q = ulpExp a b 2045 := ⟨_, rfl⟩
  have hq45 : q ≤ 2045 := by rw [hqdef]; exact ulpExp_le a b 2045
  have hB : 0 < b * 2 ^ q := Nat.mul_pos hb (two_pow_pos q)
  have h98 : 2 ^ 53 * 2 ^ 2045 = 2 ^ 2098 := two_pow_split 53 2045 2098 (by norm_num)
  have h75 : 2 ^ 970 * 2 ^ 1075 = 2 ^ 2045 := two_pow_split 970 1075 2045 (by norm_num)
  have h74 : 2 ^ 1074 * 2 = 2 ^ 1075 := two_pow_double 1074 1075 (by norm_num)
  have hnone : roundFloat64 a b = none ↔
      2 ^ 2098 ≤ roundHalfEven (a * 2 ^ 1074) (b * 2 ^ q) * 2 ^ q := by
    unfold roundFloat64 roundAtExp
    rw [← hqdef]
    dsimp only
    split
    · rename_i hc; exact ⟨fun _ => hc, fun _ => rfl⟩
    · rename_i hc; exact ⟨fun h => (by cases h), fun h => absurd h hc⟩
  rw [hnone]
  constructor
  · intro hov
    by_cases hlt : q < 2045
    · exfalso
      have hmax : a * 2 ^ 1022 < b * 2 ^ (q + 1) := by
        rw [hqdef]; exact ulpExp_max a b 2045 (by rw [← hqdef]; exact hlt)
      have hm := mantissa_le a b q hb hmax
      have h1 : roundHalfEven (a * 2 ^ 1074) (b * 2 ^ q) * 2 ^ q ≤ 2 ^ 53 * 2 ^ 2044 :=
        Nat.mul_le_mul hm (two_pow_mono q 2044 (by omega))
      have h2 : 2 ^ 53 * 2 ^ 2044 < 2 ^ 53 * 2 ^ 2045 :=
        Nat.mul_lt_mul_of_pos_left (two_pow_strict 2044 2045 (by norm_num)) (two_pow_pos 53)
      rw [h98] at h2
      omega
    · have hq : q = 2045 := by omega
      rw [hq] at hov hB
      have hm : 2 ^ 53 ≤ roundHalfEven (a * 2 ^ 1074) (b * 2 ^ 2045) := by
        rw [← h98] at hov
        exact Nat.le_of_mul_le_mul_right hov (two_pow_pos 2045)
      have herr := (roundHalfEven_error (a * 2 ^ 1074) (b * 2 ^ 2045) hB).1
      have h3 : 2 ^ 53 * (b * 2 ^ 2045) ≤
          roundHalfEven (a * 2 ^ 1074) (b * 2 ^ 2045) * (b * 2 ^ 2045) :=
        Nat.mul_le_mul_right _ hm
      have h4 : (2 ^ 54 - 1) * (b * 2 ^ 2045) ≤ 2 * (a * 2 ^ 1074) := by
        have e : (2 ^ 54 - 1) * (b * 2 ^ 2045) = 2 * (2 ^ 53 * (b * 2 ^ 2045)) - b * 2 ^ 2045 := by
          rw [Nat.sub_mul, Nat.one_mul, ← Nat.mul_assoc 2 (2 ^ 53)]
          rfl
        rw [e]
        omega
      have h5 : (2 ^ 54 - 1) * 2 ^ 970 * b * 2 ^ 1075 ≤ a * 2 ^ 1075 := by
        have e1 : (2 ^ 54 - 1) * 2 ^ 970 * b * 2 ^ 1075 = (2 ^ 54 - 1) * (b * 2 ^ 2045) := by
          rw [← h75]; ring
        have e2 : a * 2 ^ 1075 = 2 * (a * 2 ^ 1074) := by
          rw [← h74]; ring
        rw [e1, e2]
        exact h4
      exact Nat.le_of_mul_le_mul_right h5 (two_pow_pos 1075)
  · intro hbig
    have hq : q = 2045 := by
      rw [hqdef]
      apply ulpExp_top a b 2044
      have e : b * 2 ^ (2044 + 1) = 2 ^ 53 * 2 ^ 970 * b * 2 ^ 1022 := by
        rw [two_pow_split 53 970 1023 (by norm_num), Nat.mul_comm (2 ^ 1023) b, Nat.mul_assoc,
          two_pow_split 1023 1022 2045 (by norm_num)]
      rw [e]
      apply Nat.mul_le_mul_right
      refine le_trans ?_ hbig
      apply Nat.mul_le_mul_right
      apply Nat.mul_le_mul_right
      norm_num
    rw [hq] at hB ⊢
    have hm : 2 ^ 53 ≤ roundHalfEven (a * 2 ^ 1074) (b * 2 ^ 2045) := by
      apply le_roundHalfEven _ _ _ hB (by norm_num)
      have e1 : (2 * 2 ^ 53 - 1) * (b * 2 ^ 2045) = (2 ^ 54 - 1) * 2 ^ 970 * b * 2 ^ 1075 := by
        rw [← h75]
        have : 2 * 2 ^ 53 - 1 = 2 ^ 54 - 1 := by norm_num
        rw [this]; ring
      have e2 : 2 * (a * 2 ^ 1074) = a * 2 ^ 1075 := by
        rw [← h74]; ring
      rw [e1, e2]
      exact Nat.mul_le_mul_right _ hbig
    rw [← h98]
    exact Nat.mul_le_mul_right _ hm

theorem abs_sub_le_of_bounds (m a b Pq P : ℚ) (hb : 0 < b) (hP : 0 < P)
    (h1 : 2 * (m * (b * Pq)) ≤ 2 * (a * P) + b * Pq)
    (h2 : 2 * (a * P) ≤ 2 * (m * (b * Pq)) + b * Pq) :
    |m * Pq / P - a / b| ≤ Pq / (P * 2) := by
  have key : m * Pq / P - a / b = (m * (b * Pq) - a * P) / (P * b) := by
    field_simp
    ring
  have key2 : Pq / (P * 2) = (b * Pq / 2) / (P * b) := by
    field_simp
    ring
  rw [key, key2, abs_div, abs_of_pos (mul_pos hP hb)]
  apply div_le_div_of_nonneg_right _ (le_of_lt (mul_pos hP hb))
  rw [abs_le]
  constructor <;> linarith

theorem cast_two_pow (k : Nat) : ((2 ^ k : Nat) : ℚ) = (2 : ℚ) ^ k := by
  rw [Nat.cast_pow, Nat.cast_ofNat]

theorem two_zpow_nat_sub (k N : Nat) :
    (2 : ℚ) ^ ((k : Int) - (N : Int)) = ((2 ^ k : Nat) : ℚ) / ((2 ^ N : Nat) : ℚ) := by
  rw [zpow_sub₀ (by norm_num : (2 : ℚ) ≠ 0), zpow_natCast, zpow_natCast, cast_two_pow,
    cast_two_pow]

/-- The value of a mantissa at a biased exponent is a `float64`. -/
theorem isFloat64_of_mantissa (m q : Nat) (hm : m ≤ 2 ^ 53) (hq : q ≤ 2045)
    (hlt : m * 2 ^ q < 2 ^ 2098) :
    IsFloat64 (((m * 2 ^ q : Nat) : ℚ) / ((2 ^ 1074 : Nat) : ℚ)) := by
  by_cases h53 : m < 2 ^ 53
  · refine ⟨m, (q : Int) - ((1074 : Nat) : Int), h53, ?_, ?_, ?_⟩
    · have : ((1074 : Nat) : Int) = 1074 := rfl
      omega
    · have : ((1074 : Nat) : Int) = 1074 := rfl
      omega
    · rw [two_zpow_nat_sub, Nat.cast_mul, mul_div_assoc]
  · have hm53 : m = 2 ^ 53 := by omega
    have hq44 : q < 2045 := by
      by_contra hge
      have hq : q = 2045 := by omega
      rw [hm53, hq, two_pow_split 53 2045 2098 (by norm_num)] at hlt
      exact lt_irrefl _ hlt
    refine ⟨2 ^ 52, ((q + 1 : Nat) : Int) - ((1074 : Nat) : Int), by norm_num, ?_, ?_, ?_⟩
    · have : ((1074 : Nat) : Int) = 1074 := rfl
      omega
    · have : ((1074 : Nat) : Int) = 1074 := rfl
      omega
    · rw [two_zpow_nat_sub, hm53, ← mul_div_assoc]
      have e : 2 ^ 53 * 2 ^ q = 2 ^ 52 * 2 ^ (q + 1) := by
        rw [two_pow_split 53 q (53 + q) rfl, two_pow_split 52 (q + 1) (53 + q) (by omega)]
      rw [e, Nat.cast_mul]

/-- What `strconv.ParseFloat` returns without error is a `float64` within half a unit in the last
place of the decimal: within the fraction `2 ^ -53` of it, or within `2 ^ -1075` for a decimal in
the subnormal range. -/
theorem roundFloat64_some (a b : Nat) (hb : 0 < b) (v : ℚ) (h : roundFloat64 a b = some v) :
    IsFloat64 v ∧
    |v - (a : ℚ) / (b : ℚ)|
      ≤ max (((a : ℚ) / (b : ℚ)) / ((2 ^ 53 : Nat) : ℚ)) (1 / ((2 ^ 1075 : Nat) : ℚ)) := by
  obtain ⟨q, hqdef⟩ : ∃ q, q = ulpExp a b 2045 := ⟨_, rfl⟩
  have hq45 : q ≤ 2045 := by rw [hqdef]; exact ulpExp_le a b 2045
  have hB : 0 < b * 2 ^ q := Nat.mul_pos hb (two_pow_pos q)
  obtain ⟨m, hmdef⟩ : ∃ m, m = roundHalfEven (a * 2 ^ 1074) (b * 2 ^ q) := ⟨_, rfl⟩
  have hv : ¬ 2 ^ 2098 ≤ m * 2 ^ q ∧ v = ((m * 2 ^ q : Nat) : ℚ) / ((2 ^ 1074 : Nat) : ℚ) := by
    unfold roundFloat64 roundAtExp at h
    rw [← hqdef] at h
    dsimp only at h
    rw [← hmdef] at h
    split at h
    · cases h
    · rename_i hc
      injection h with h
      exact ⟨hc, h.symm⟩
  obtain ⟨hlt, hveq⟩ := hv
  have hlt2 : m * 2 ^ q < 2 ^ 2098 := not_le.mp hlt
  have hm53 : m ≤ 2 ^ 53 := by
    by_cases hq : q < 2045
    · rw [hmdef]
      apply mantissa_le a b q hb
      rw [hqdef]
      exact ulpExp_max a b 2045 (by rw [← hqdef]; exact hq)
    · have hq2 : q = 2045 := by omega
      rw [hq2, ← two_pow_split 53 2045 2098 (by norm_num)] at hlt2
      exact le_of_lt (Nat.lt_of_mul_lt_mul_right hlt2)
  refine ⟨by rw [hveq]; exact isFloat64_of_mantissa m q hm53 hq45 hlt2, ?_⟩
  have herr := roundHalfEven_error (a * 2 ^ 1074) (b * 2 ^ q) hB
  rw [← hmdef] at herr
  have hbq : (0 : ℚ) < (b : ℚ) := by exact_mod_cast hb
  have hP : (0 : ℚ) < ((2 ^ 1074 : Nat) : ℚ) := by exact_mod_cast two_pow_pos 1074
  have h1 : 2 * ((m : ℚ) * ((b : ℚ) * ((2 ^ q : Nat) : ℚ)))
      ≤ 2 * ((a : ℚ) * ((2 ^ 1074 : Nat) : ℚ)) + (b : ℚ) * ((2 ^ q : Nat) : ℚ) := by
    have := herr.1
    have h2 : ((2 * (m * (b * 2 ^ q)) : Nat) : ℚ) ≤ ((2 * (a * 2 ^ 1074) + b * 2 ^ q : Nat) : ℚ) :=
      Nat.cast_le.mpr this
    simp only [Nat.cast_mul, Nat.cast_add, Nat.cast_ofNat] at h2
    exact h2
  have h2 : 2 * ((a : ℚ) * ((2 ^ 1074 : Nat) : ℚ))
      ≤ 2 * ((m : ℚ) * ((b : ℚ) * ((2 ^ q : Nat) : ℚ))) + (b : ℚ) * ((2 ^ q : Nat) : ℚ) := by
    have := herr.2
    have h2 : ((2 * (a * 2 ^ 1074) : Nat) : ℚ) ≤ ((2 * (m * (b * 2 ^ q)) + b * 2 ^ q : Nat) : ℚ) :=
      Nat.cast_le.mpr this
    simp only [Nat.cast_mul, Nat.cast_add, Nat.cast_ofNat] at h2
    exact h2
  have hbound := abs_sub_le_of_bounds (m : ℚ) (a : ℚ) (b : ℚ) ((2 ^ q : Nat) : ℚ)
    ((2 ^ 1074 : Nat) : ℚ) hbq hP h1 h2
  have hveq2 : v = (m : ℚ) * ((2 ^ q : Nat) : ℚ) / ((2 ^ 1074 : Nat) : ℚ) := by
    rw [hveq, Nat.cast_mul]
  rw [hveq2]
  refine le_trans hbound ?_
  have h75 : ((2 ^ 1074 : Nat) : ℚ) * 2 = ((2 ^ 1075 : Nat) : ℚ) := by
    have := congrArg (Nat.cast : Nat → ℚ) (two_pow_double 1074 1075 (by norm_num))
    rw [Nat.cast_mul, Nat.cast_ofNat] at this
    exact this
  rcases ulpExp_spec a b 2045 with h0 | hge
  · rw [← hqdef] at h0
    rw [h0, h75]
    have e1 : ((2 ^ 0 : Nat) : ℚ) = 1 := by norm_num
    rw [e1]
    exact le_max_right _ _
  · rw [← hqdef] at hge
    refine le_trans ?_ (le_max_left _ _)
    have hP22 : (0 : ℚ) < ((2 ^ 1022 : Nat) : ℚ) := by exact_mod_cast two_pow_pos 1022
    have hP53 : (0 : ℚ) < ((2 ^ 53 : Nat) : ℚ) := by exact_mod_cast two_pow_pos 53
    have e2 : ((2 ^ 1074 : Nat) : ℚ) * 2 = ((2 ^ 1022 : Nat) : ℚ) * ((2 ^ 53 : Nat) : ℚ) := by
      rw [h75]
      have := congrArg (Nat.cast : Nat → ℚ) (two_pow_split 1022 53 1075 (by norm_num))
      rw [Nat.cast_mul] at this
      exact this.symm
    have hge2 : (b : ℚ) * ((2 ^ q : Nat) : ℚ) ≤ (a : ℚ) * ((2 ^ 1022 : Nat) : ℚ) := by
      have h3 : ((b * 2 ^ q : Nat) : ℚ) ≤ ((a * 2 ^ 1022 : Nat) : ℚ) := Nat.cast_le.mpr hge
      rw [Nat.cast_mul, Nat.cast_mul] at h3
      exact h3
    have hx : ((2 ^ q : Nat) : ℚ) / ((2 ^ 1022 : Nat) : ℚ) ≤ (a : ℚ) / (b : ℚ) := by
      rw [div_le_div_iff₀ hP22 hbq]
      linarith
    rw [e2, ← div_div]
    exact div_le_div_of_nonneg_right hx (le_of_lt hP53)

/-! ## `msm` -/

theorem isDigit_dot : isDigit '.' = false := by decide

theorem parseFloat_group (d1 d2 : Str) (h1 : d1 ≠ []) (h2 : d2 ≠ [])
    (hd1 : ∀ c ∈ d1, isDigit c = true) (hd2 : ∀ c ∈ d2, isDigit c = true) :
    parseFloat (d1 ++ '.' :: d2) = roundFloat64 (decimalNat (d1 ++ d2)) (10 ^ d2.length) := by
  have ht : (d1 ++ '.' :: d2).takeWhile isDigit = d1 := by
    rw [takeWhile_run_append _ _ hd1, List.takeWhile_cons_of_neg (by simp [isDigit_dot])]; simp
  have hdr : (d1 ++ '.' :: d2).dropWhile isDigit = '.' :: d2 := by
    rw [dropWhile_run_append _ _ hd1, List.dropWhile_cons_of_neg (by simp [isDigit_dot])]
  unfold parseFloat
  rw [hdr]
  simp only [ht]
  rw [if_neg]
  intro hcond
  rcases (Bool.or_eq_true _ _).mp hcond with hab | hc
  · rcases (Bool.or_eq_true _ _).mp hab with ha | hb
    · exact h1 (List.isEmpty_iff.mp ha)
    · exact h2 (List.isEmpty_iff.mp hb)
  · have : d2.all isDigit = true := List.all_eq_true.mpr hd2
    rw [this] at hc; cases hc

/-- The value of `msm` in terms of the search result. -/
theorem msm_of_find_some (t g : Str) (h : findStringSubmatch levelRe t = some g) :
    msm t = (parseFloat g).getD 0 := by
  unfold msm
  rw [h]
  cases hp : parseFloat g <;> simp [hp]

theorem msm_of_find_none (t : Str) (h : findStringSubmatch levelRe t = none) : msm t = 0 := by
  unfold msm
  rw [h]

/-- The search on a text `n.f msm`. -/
theorem find_decimal (n f rest : Str) (hn : n ≠ []) (hf : f ≠ [])
    (hdn : ∀ c ∈ n, isDigit c = true) (hdf : ∀ c ∈ f, isDigit c = true) :
    findStringSubmatch levelRe (n ++ '.' :: f ++ ' ' :: msmText ++ rest) = some (n ++ '.' :: f) := by
  apply findStringSubmatch_of_groupAt
  have e : n ++ '.' :: f ++ ' ' :: msmText ++ rest = n ++ '.' :: (f ++ ' ' :: (msmText ++ rest)) := by
    simp
  have hsp : isDigit ' ' = false := by decide
  have ht : (n ++ '.' :: (f ++ ' ' :: (msmText ++ rest))).takeWhile isDigit = n := by
    rw [takeWhile_run_append _ _ hdn, List.takeWhile_cons_of_neg (by simp [isDigit_dot])]; simp
  have hdr : (n ++ '.' :: (f ++ ' ' :: (msmText ++ rest))).dropWhile isDigit
      = '.' :: (f ++ ' ' :: (msmText ++ rest)) := by
    rw [dropWhile_run_append _ _ hdn, List.dropWhile_cons_of_neg (by simp [isDigit_dot])]
  have ht2 : (f ++ ' ' :: (msmText ++ rest)).takeWhile isDigit = f := by
    rw [takeWhile_run_append _ _ hdf, List.takeWhile_cons_of_neg (by simp [hsp])]; simp
  have hdr2 : (f ++ ' ' :: (msmText ++ rest)).dropWhile isDigit = ' ' :: (msmText ++ rest) := by
    rw [dropWhile_run_append _ _ hdf, List.dropWhile_cons_of_neg (by simp [hsp])]
  have hm : msmAhead (' ' :: (msmText ++ rest)) = true :=
    (msmAhead_iff _).mpr ⟨[' '], rest, rfl, by decide⟩
  rw [e]
  unfold groupAt
  rw [hdr]
  simp only [ht, ht2, hdr2, hm]
  rw [if_neg]
  intro hcond
  rcases (Bool.or_eq_true _ _).mp hcond with hab | hc
  · rcases (Bool.or_eq_true _ _).mp hab with ha | hb
    · exact hn (List.isEmpty_iff.mp ha)
    · exact hf (List.isEmpty_iff.mp hb)
  · cases hc

theorem msm_on_decimal (n f : Str) (hn : n ≠ []) (hf : f ≠ [])
    (hdn : ∀ c ∈ n, isDigit c = true) (hdf : ∀ c ∈ f, isDigit c = true) :
    msm (n ++ '.' :: f ++ ' ' :: msmText)
      = (roundFloat64 (decimalNat (n ++ f)) (10 ^ f.length)).getD 0 := by
  have h := find_decimal n f [] hn hf hdn hdf
  rw [List.append_nil] at h
  rw [msm_of_find_some _ _ h, parseFloat_group n f hn hf hdn hdf]

theorem decimalNat_append_one (s : Str) (c : Char) :
    decimalNat (s ++ [c]) = 10 * decimalNat s + digitVal c := by
  unfold decimalNat
  rw [List.foldl_append]
  rfl

theorem decimalNat_one_zeros (k : Nat) : decimalNat ('1' :: List.replicate k '0') = 10 ^ k := by
  induction k with
  | zero => rfl
  | succ k ih =>
    have e : '1' :: List.replicate (k + 1) '0' = ('1' :: List.replicate k '0') ++ ['0'] := by
      rw [List.replicate_succ', List.cons_append]
    rw [e, decimalNat_append_one, ih, pow_succ]
    have : digitVal '0' = 0 := rfl
    rw [this]; ring

theorem all_digits_one_zeros (k : Nat) : ∀ c ∈ '1' :: List.replicate k '0', isDigit c = true := by
  intro c hc
  rcases List.mem_cons.mp hc with h | h
  · subst h; decide
  · rw [List.eq_of_mem_replicate h]; decide

theorem msm_overflow_example :
    msm ('1' :: List.replicate 309 '0' ++ '.' :: ['0'] ++ ' ' :: msmText) = 0 := by
  rw [msm_on_decimal _ _ (List.cons_ne_nil _ _) (List.cons_ne_nil _ _) (all_digits_one_zeros 309)
    (by decide)]
  have e : ('1' :: List.replicate 309 '0') ++ ['0'] = '1' :: List.replicate 310 '0' := by
    rw [List.replicate_succ' 309, List.cons_append]
  rw [e, decimalNat_one_zeros, roundFloat64_overflow _ _ (by norm_num) (by norm_num)]
  rfl

theorem msm_nonneg (t : Str) : 0 ≤ msm t := by
  unfold msm
  split
  · rename_i g hg
    split
    · rename_i v hv
      obtain ⟨pre, t1, -, hgt, -⟩ := findStringSubmatch_some t g hg
      obtain ⟨d1, d2, rest, -, hgeq, h1, h2, hd1, hd2, -, -⟩ := groupAt_some t1 g hgt
      rw [hgeq, parseFloat_group d1 d2 h1 h2 hd1 hd2] at hv
      exact roundFloat64_nonneg _ _ v hv
    · exact le_refl _
  · exact le_refl _

theorem two_zpow_sub (k N : Nat) :
    (2 : ℚ) ^ ((k : Int) - (N : Int)) = ((2 ^ k : Nat) : ℚ) / ((2 ^ N : Nat) : ℚ) := by
  rw [zpow_sub₀ (by norm_num : (2 : ℚ) ≠ 0), zpow_natCast, zpow_natCast]
  push_cast
  rfl

theorem ratio_eq_nat (A B M K P : Nat) (hB : 0 < B) (hP : 0 < P)
    (h : (A : ℚ) / (B : ℚ) = (M : ℚ) * ((K : ℚ) / (P : ℚ))) : A * P = M * K * B := by
  have hb : (B : ℚ) ≠ 0 := by exact_mod_cast hB.ne'
  have hp : (P : ℚ) ≠ 0 := by exact_mod_cast hP.ne'
  have h4 : (A : ℚ) * (P : ℚ) = (M : ℚ) * (K : ℚ) * (B : ℚ) := by
    field_simp at h
    linarith
  exact_mod_cast h4

theorem decimalValue_exact_nat (n f : Str) (m : Nat) (e : Int) (he1 : -1074 ≤ e)
    (h : decimalValue n f = (m : ℚ) * 2 ^ e) :
    decimalNat (n ++ f) * 2 ^ 1074 = m * 2 ^ (e + 1074).toNat * 10 ^ f.length := by
  obtain ⟨k, hk⟩ : ∃ k : Nat, e + 1074 = (k : Int) := ⟨(e + 1074).toNat, by omega⟩
  have he : e = (k : Int) - ((1074 : Nat) : Int) := by
    have : ((1074 : Nat) : Int) = 1074 := rfl
    omega
  rw [hk, Int.toNat_ofNat]
  unfold decimalValue at h
  rw [he, two_zpow_sub k 1074] at h
  exact ratio_eq_nat _ _ _ _ _ (by positivity) (by positivity) h

theorem decimalValue_ge_nat (n f : Str) (T : Nat) (h : (T : ℚ) ≤ decimalValue n f) :
    T * 10 ^ f.length ≤ decimalNat (n ++ f) := by
  unfold decimalValue at h
  have hb : (0 : ℚ) < ((10 ^ f.length : Nat) : ℚ) := by positivity
  rw [le_div_iff₀ hb] at h
  have h2 : ((T * 10 ^ f.length : Nat) : ℚ) ≤ ((decimalNat (n ++ f) : Nat) : ℚ) := by
    rw [Nat.cast_mul]
    exact h
  exact Nat.cast_le.mp h2

theorem decimalValue_lt_nat (n f : Str) (T : Nat) (h : decimalValue n f < (T : ℚ)) :
    ¬ T * 10 ^ f.length ≤ decimalNat (n ++ f) := by
  intro hle
  unfold decimalValue at h
  have hb : (0 : ℚ) < ((10 ^ f.length : Nat) : ℚ) := by positivity
  rw [div_lt_iff₀ hb] at h
  have h2 : ((T * 10 ^ f.length : Nat) : ℚ) ≤ ((decimalNat (n ++ f) : Nat) : ℚ) :=
    Nat.cast_le.mpr hle
  rw [Nat.cast_mul] at h2
  linarith

theorem msm_on_exact_decimal (n f : Str) (hn : n ≠ []) (hf : f ≠ [])
    (hdn : ∀ c ∈ n, isDigit c = true) (hdf : ∀ c ∈ f, isDigit c = true) (m : Nat) (e : Int)
    (hm : m < 2 ^ 53) (he1 : -1074 ≤ e) (he2 : e ≤ 971)
    (hval : decimalValue n f = (m : ℚ) * 2 ^ e) :
    msm (n ++ '.' :: f ++ ' ' :: msmText) = decimalValue n f := by
  have hnat := decimalValue_exact_nat n f m e he1 hval
  rw [msm_on_decimal n f hn hf hdn hdf,
    roundFloat64_exact _ _ m (e + 1074).toNat (by positivity) hm (by omega) hnat]
  unfold decimalValue
  rfl

/-- Evaluation of `msm` on a text `n.f msm` whose decimal is a `float64`. -/
theorem msm_text_exact (t n f : Str) (q : ℚ) (a : Nat) (m : Nat) (e : Int)
    (ht : t = n ++ '.' :: f ++ ' ' :: msmText) (hn : n ≠ []) (hf : f ≠ [])
    (hdn : ∀ c ∈ n, isDigit c = true) (hdf : ∀ c ∈ f, isDigit c = true)
    (ha : decimalNat (n ++ f) = a) (hq : (a : ℚ) / ((10 ^ f.length : Nat) : ℚ) = q)
    (hm : m < 2 ^ 53) (he1 : -1074 ≤ e) (he2 : e ≤ 971) (hval : q = (m : ℚ) * 2 ^ e) :
    msm t = q := by
  have hv : decimalValue n f = q := by
    unfold decimalValue
    rw [ha, hq]
  rw [ht, msm_on_exact_decimal n f hn hf hdn hdf m e hm he1 he2 (by rw [hv, hval]), hv]

theorem msm_750_0 : msm "750.0 msm".toList = 750 :=
  msm_text_exact _ ['7', '5', '0'] ['0'] 750 7500 375 1 (by decide) (by decide) (by decide)
    (by decide) (by decide) (by decide) (by norm_num) (by norm_num) (by norm_num) (by norm_num)
    (by norm_num)

theorem msm_700_5 : msm "700.5 msm".toList = 1401 / 2 :=
  msm_text_exact _ ['7', '0', '0'] ['5'] (1401 / 2) 7005 1401 (-1) (by decide) (by decide)
    (by decide) (by decide) (by decide) (by decide) (by norm_num) (by norm_num) (by norm_num)
    (by norm_num) (by norm_num)

theorem msm_701_0 : msm "701.0 msm".toList = 701 :=
  msm_text_exact _ ['7', '0', '1'] ['0'] 701 7010 701 0 (by decide) (by decide) (by decide)
    (by decide) (by decide) (by decide) (by norm_num) (by norm_num) (by norm_num) (by norm_num)
    (by norm_num)

theorem msm_701_5 : msm "701.5 msm".toList = 1403 / 2 :=
  msm_text_exact _ ['7', '0', '1'] ['5'] (1403 / 2) 7015 1403 (-1) (by decide) (by decide)
    (by decide) (by decide) (by decide) (by decide) (by norm_num) (by norm_num) (by norm_num)
    (by norm_num) (by norm_num)

/-- C2, as amended. For a text `n.f msm` with `n` and `f` non-empty runs of digits, `msm` returns
the result of `strconv.ParseFloat` on `n.f`, and 0 when that reports a range error. So it returns
the decimal itself whenever the decimal is a `float64`; it returns 0 whenever the decimal is
`2 ^ 1024 - 2 ^ 970` or more; and below that bound it returns a `float64` that differs from the
decimal by at most the fraction `2 ^ -53` of it (by at most `2 ^ -1075` in the subnormal
range). -/
theorem msm_decimal (n f : Str) (hn : n ≠ []) (hf : f ≠ [])
    (hdn : ∀ c ∈ n, isDigit c = true) (hdf : ∀ c ∈ f, isDigit c = true) :
    msm (n ++ '.' :: f ++ ' ' :: msmText)
        = (roundFloat64 (decimalNat (n ++ f)) (10 ^ f.length)).getD 0 ∧
    (IsFloat64 (decimalValue n f) →
      msm (n ++ '.' :: f ++ ' ' :: msmText) = decimalValue n f) ∧
    ((((2 ^ 54 - 1) * 2 ^ 970 : Nat) : ℚ) ≤ decimalValue n f →
      msm (n ++ '.' :: f ++ ' ' :: msmText) = 0) ∧
    (decimalValue n f < (((2 ^ 54 - 1) * 2 ^ 970 : Nat) : ℚ) →
      IsFloat64 (msm (n ++ '.' :: f ++ ' ' :: msmText)) ∧
      |msm (n ++ '.' :: f ++ ' ' :: msmText) - decimalValue n f|
        ≤ max (decimalValue n f / ((2 ^ 53 : Nat) : ℚ)) (1 / ((2 ^ 1075 : Nat) : ℚ))) := by
  have h0 := msm_on_decimal n f hn hf hdn hdf
  have hb : 0 < 10 ^ f.length := by positivity
  refine ⟨h0, ?_, ?_, ?_⟩
  · rintro ⟨m, e, hm, he1, he2, hval⟩
    exact msm_on_exact_decimal n f hn hf hdn hdf m e hm he1 he2 hval
  · intro hbig
    rw [h0, (roundFloat64_none_iff _ _ hb).mpr (decimalValue_ge_nat n f _ hbig)]
    rfl
  · intro hsmall
    have hne : roundFloat64 (decimalNat (n ++ f)) (10 ^ f.length) ≠ none :=
      fun hnone => decimalValue_lt_nat n f _ hsmall ((roundFloat64_none_iff _ _ hb).mp hnone)
    obtain ⟨v, hv⟩ := Option.ne_none_iff_exists'.mp hne
    have hprops := roundFloat64_some _ _ hb v hv
    rw [h0, hv]
    exact hprops

/-- C2, witness: `msm("700.5 msm") = 700.5`. -/
theorem msm_decimal_witness :
    msm ['7', '0', '0', '.', '5', ' ', 'm', 's', 'm'] = 1401 / 2 := by
  have hv : decimalValue ['7', '0', '0'] ['5'] = 1401 / 2 := by
    have h1 : decimalNat (['7', '0', '0'] ++ ['5']) = 7005 := by decide
    unfold decimalValue
    rw [h1]
    norm_num
  have h := (msm_decimal ['7', '0', '0'] ['5'] (by decide) (by decide) (by decide) (by decide)).2.1
    ⟨1401, -1, by norm_num, by norm_num, by norm_num, by rw [hv]; norm_num⟩
  rw [hv] at h
  exact h

/-- C2, counterexample to the claim as stated: for the numeral made of a 1 and 309 zeros, with
fraction `0`, which denotes `10 ^ 309`, `msm` returns 0. -/
theorem msm_decimal_counterexample :
    msm ('1' :: List.replicate 309 '0' ++ '.' :: ['0'] ++ ' ' :: msmText) = 0 ∧
    decimalValue ('1' :: List.replicate 309 '0') ['0'] = 10 ^ 309 ∧
    msm ('1' :: List.replicate 309 '0' ++ '.' :: ['0'] ++ ' ' :: msmText)
      ≠ decimalValue ('1' :: List.replicate 309 '0') ['0'] := by
  have hv : decimalValue ('1' :: List.replicate 309 '0') ['0'] = 10 ^ 309 := by
    have e : ('1' :: List.replicate 309 '0') ++ ['0'] = '1' :: List.replicate 310 '0' := by
      rw [List.replicate_succ' 309, List.cons_append]
    unfold decimalValue
    rw [e, decimalNat_one_zeros]
    norm_num
  have h0 := msm_overflow_example
  refine And.intro h0 (And.intro hv ?_)
  rw [h0, hv]
  exact (pow_pos (by norm_num : (0 : ℚ) < 10) 309).ne

/-- The shape of the text around a successful search, with the value `msm` gets from it. -/
theorem msm_find_shape (t g : Str) (h : findStringSubmatch levelRe t = some g) :
    ∃ pre d1 d2 mid post, t = pre ++ d1 ++ '.' :: d2 ++ mid ++ msmText ++ post ∧
      d1 ≠ [] ∧ d2 ≠ [] ∧ (∀ c ∈ d1, isDigit c = true) ∧ (∀ c ∈ d2, isDigit c = true) ∧
      (∀ c r, mid ++ msmText ++ post = c :: r → isDigit c = false) ∧ '\n' ∉ mid ∧
      (∀ pre1 t1, t = pre1 ++ t1 → pre1.length < pre.length → ¬ LevelMatch t1) ∧
      msm t = (roundFloat64 (decimalNat (d1 ++ d2)) (10 ^ d2.length)).getD 0 := by
  obtain ⟨pre, t1, ht, hgt, hleft⟩ := findStringSubmatch_some t g h
  obtain ⟨d1, d2, rest, ht1, hgeq, h1, h2, hd1, hd2, hrest, hahead⟩ := groupAt_some t1 g hgt
  obtain ⟨mid, post, hr, hmid⟩ := (msmAhead_iff rest).mp hahead
  refine ⟨pre, d1, d2, mid, post, ?_, h1, h2, hd1, hd2, ?_, hmid, ?_, ?_⟩
  · rw [ht, ht1, hr]; simp
  · rw [← hr]; exact hrest
  · intro pre1 t2 hsplit hlen hmatch
    obtain ⟨e1, e2, m, p, ht2, he1, he2, hde1, hde2, hm⟩ := hmatch
    obtain ⟨g2, hg2⟩ := groupAt_isSome_of_match e1 e2 m p he1 he2 hde1 hde2 hm
    rw [← ht2, hleft pre1 t2 hsplit hlen] at hg2
    cases hg2
  · rw [msm_of_find_some t g h, hgeq, parseFloat_group d1 d2 h1 h2 hd1 hd2]

/-- C3. The function `msm` is total and has no error result; it returns 0 for every text in which
`msm` does not occur, and for every text in which no digit is followed by a dot and a digit (an
integer such as `750 msm`). -/
theorem msm_zero (t : Str)
    (h : (¬ ∃ pre post, t = pre ++ msmText ++ post) ∨
      (¬ ∃ pre a b post, t = pre ++ a :: '.' :: b :: post ∧ isDigit a = true ∧ isDigit b = true)) :
    msm t = 0 := by
  cases hf : findStringSubmatch levelRe t with
  | none => exact msm_of_find_none t hf
  | some g =>
    exfalso
    obtain ⟨pre, d1, d2, mid, post, ht, h1, h2, hd1, hd2, -, -, -, -⟩ := msm_find_shape t g hf
    rcases h with h | h
    · exact h ⟨pre ++ d1 ++ '.' :: d2 ++ mid, post, ht⟩
    · apply h
      obtain ⟨b, d2r, hb⟩ := List.exists_cons_of_ne_nil h2
      refine ⟨pre ++ d1.dropLast, d1.getLast h1, b, d2r ++ mid ++ msmText ++ post, ?_, ?_, ?_⟩
      · rw [ht, hb]
        conv_lhs => rw [← List.dropLast_append_getLast h1]
        simp
      · exact hd1 _ (List.getLast_mem h1)
      · exact hd2 b (by rw [hb]; exact List.mem_cons_self _ _)

/-- C3, witness: `msm("750 msm") = 0`. -/
theorem msm_zero_witness : msm ['7', '5', '0', ' ', 'm', 's', 'm'] = 0 :=
  msm_zero ['7', '5', '0', ' ', 'm', 's', 'm'] (Or.inr (by
    rintro ⟨pre, a, b, post, h, -, -⟩
    have hmem : '.' ∈ ['7', '5', '0', ' ', 'm', 's', 'm'] := by
      rw [h]; simp
    revert hmem
    decide))

theorem msm_two_numbers :
    msm ['1', '.', '5', ' ', 'x', ' ', '2', '.', '5', ' ', 'm', 's', 'm'] = 3 / 2 := by
  have hf : findStringSubmatch levelRe
      ['1', '.', '5', ' ', 'x', ' ', '2', '.', '5', ' ', 'm', 's', 'm'] = some ['1', '.', '5'] := by
    decide
  have hp := parseFloat_group ['1'] ['5'] (by decide) (by decide) (by decide) (by decide)
  rw [show ['1'] ++ '.' :: ['5'] = ['1', '.', '5'] from rfl] at hp
  rw [msm_of_find_some _ _ hf, hp]
  have hd : decimalNat (['1'] ++ ['5']) = 15 := by decide
  have hl : ['5'].length = 1 := rfl
  rw [hd, hl, roundFloat64_exact 15 (10 ^ 1) 3 1073 (by norm_num) (by norm_num) (by norm_num)
    (by norm_num)]
  norm_num

/-- C4, as amended. When `msm` returns a value other than 0, the text has the form
`pre d1.d2 mid msm post`, where `d1` and `d2` are runs of digits with no digit after `d2`, `mid`
holds no newline (it need not be empty), no earlier position of the text starts a match of the
pattern, and the value is the `float64` read from `d1.d2`. -/
theorem msm_nonzero_leftmost (t : Str) (h : msm t ≠ 0) :
    ∃ pre d1 d2 mid post, t = pre ++ d1 ++ '.' :: d2 ++ mid ++ msmText ++ post ∧
      d1 ≠ [] ∧ d2 ≠ [] ∧ (∀ c ∈ d1, isDigit c = true) ∧ (∀ c ∈ d2, isDigit c = true) ∧
      (∀ c r, mid ++ msmText ++ post = c :: r → isDigit c = false) ∧ '\n' ∉ mid ∧
      (∀ pre1 t1, t = pre1 ++ t1 → pre1.length < pre.length → ¬ LevelMatch t1) ∧
      roundFloat64 (decimalNat (d1 ++ d2)) (10 ^ d2.length) = some (msm t) := by
  cases hf : findStringSubmatch levelRe t with
  | none => exact absurd (msm_of_find_none t hf) h
  | some g =>
    obtain ⟨pre, d1, d2, mid, post, ht, h1, h2, hd1, hd2, hmax, hmid, hleft, hval⟩ :=
      msm_find_shape t g hf
    refine ⟨pre, d1, d2, mid, post, ht, h1, h2, hd1, hd2, hmax, hmid, hleft, ?_⟩
    cases hr : roundFloat64 (decimalNat (d1 ++ d2)) (10 ^ d2.length) with
    | none => rw [hr] at hval; exact absurd hval h
    | some v => rw [hr] at hval; rw [hval]; rfl

/-- C4, witness: the text `1.5 x 2.5 msm`, on which `msm` is not 0. -/
theorem msm_nonzero_leftmost_witness :
    ∃ pre d1 d2 mid post,
      ['1', '.', '5', ' ', 'x', ' ', '2', '.', '5', ' ', 'm', 's', 'm']
        = pre ++ d1 ++ '.' :: d2 ++ mid ++ msmText ++ post ∧
      d1 ≠ [] ∧ d2 ≠ [] ∧ (∀ c ∈ d1, isDigit c = true) ∧ (∀ c ∈ d2, isDigit c = true) ∧
      (∀ c r, mid ++ msmText ++ post = c :: r → isDigit c = false) ∧ '\n' ∉ mid ∧
      (∀ pre1 t1, ['1', '.', '5', ' ', 'x', ' ', '2', '.', '5', ' ', 'm', 's', 'm'] = pre1 ++ t1 →
        pre1.length < pre.length → ¬ LevelMatch t1) ∧
      roundFloat64 (decimalNat (d1 ++ d2)) (10 ^ d2.length)
        = some (msm ['1', '.', '5', ' ', 'x', ' ', '2', '.', '5', ' ', 'm', 's', 'm']) :=
  msm_nonzero_leftmost _ (by rw [msm_two_numbers]; norm_num)

/-- C4, counterexample to the claim as stated: on `1.5 x 2.5 msm` the function `msm` returns 1.5,
the first decimal number of the text, and not 2.5, the number next to `msm`. -/
theorem msm_first_number_counterexample :
    msm ['1', '.', '5', ' ', 'x', ' ', '2', '.', '5', ' ', 'm', 's', 'm'] = 3 / 2 ∧
    msm ['1', '.', '5', ' ', 'x', ' ', '2', '.', '5', ' ', 'm', 's', 'm'] ≠ 5 / 2 := by
  refine And.intro msm_two_numbers ?_
  rw [msm_two_numbers]
  norm_num

/-! ## Dates -/

theorem isDigit_utod (k : Nat) (h : k < 10) : isDigit (utod k) = true := by
  revert k; decide

theorem digitVal_utod (k : Nat) (h : k < 10) : digitVal (utod k) = k := by
  revert k; decide

theorem digitVal_le (c : Char) (h : isDigit c = true) : digitVal c ≤ 9 := by
  unfold isDigit at h
  simp only [Bool.and_eq_true, decide_eq_true_eq] at h
  unfold digitVal
  have h2 : c.toNat ≤ '9'.toNat := h.2
  have : '9'.toNat = 57 := rfl
  omega

theorem daysIn_le (m y : Nat) : daysIn m y ≤ 31 := by
  unfold daysIn
  split
  · norm_num
  · rcases Nat.lt_or_ge (m - 1) 12 with h | h
    · interval_cases (m - 1) <;> simp
    · rw [List.getD_eq_default _ _ (by simpa using h)]; norm_num

theorem getnum_bound (s : Str) (fixed : Bool) (n : Nat) (r : Str)
    (h : getnum s fixed = some (n, r)) : n ≤ 99 := by
  unfold getnum at h
  split at h
  · cases h
  · split at h
    · rename_i hc
      simp only [Bool.and_eq_true] at hc
      injection h with h; injection h with h1 h2
      have := digitVal_le _ hc.1
      omega
    · cases h
  · split at h
    · rename_i hc0
      split at h
      · rename_i hc1
        injection h with h; injection h with h1 h2
        have := digitVal_le _ hc0
        have := digitVal_le _ hc1
        omega
      · split at h
        · cases h
        · injection h with h; injection h with h1 h2
          have := digitVal_le _ hc0
          omega
    · cases h

theorem longYear_bound (s : Str) (n : Nat) (r : Str) (h : longYear s = some (n, r)) :
    n < 10000 := by
  unfold longYear at h
  split at h
  · split at h
    · rename_i hc
      simp only [Bool.and_eq_true] at hc
      injection h with h; injection h with h1 h2
      have := digitVal_le _ hc.1.1.1
      have := digitVal_le _ hc.1.1.2
      have := digitVal_le _ hc.1.2
      have := digitVal_le _ hc.2
      omega
    · cases h
  · cases h

theorem checkDate_ok (layout value rest : Str) (y m d : Nat) (dt : Date)
    (h : checkDate layout value rest y m d = Except.ok dt) :
    dt = ⟨y, m, d⟩ ∧ rest = [] ∧ 1 ≤ d ∧ d ≤ daysIn m y := by
  unfold checkDate at h
  split at h
  · cases h
  · rename_i hr
    split at h
    · cases h
    · rename_i hd
      injection h with h
      refine ⟨h.symm, ?_, ?_, ?_⟩
      · simpa using hr
      · omega
      · omega

/-- Every date `time.Parse("2.1.2006", _)` returns is a date of the calendar with a four-digit
year. -/
theorem parseDMY_valid (v : Str) (d : Date) (h : parseDMY v = Except.ok d) : ValidDate d := by
  unfold parseDMY at h
  split at h
  · cases h
  · split at h
    · cases h
    · split at h
      · cases h
      · split at h
        · cases h
        · rename_i hm
          split at h
          · cases h
          · split at h
            · cases h
            · rename_i year v5 hy
              obtain ⟨rfl, -, hd1, hd2⟩ := checkDate_ok _ _ _ _ _ _ _ h
              refine ⟨longYear_bound _ _ _ hy, ?_, ?_, hd1, hd2⟩
              · dsimp only
                omega
              · dsimp only
                omega

theorem appendInt_two (x : Nat) (h : x < 100) : appendInt x 2 = [utod (x / 10), utod (x % 10)] := by
  unfold appendInt
  rw [if_pos ⟨rfl, h⟩]

theorem appendInt_four (x : Nat) (h : x < 10000) :
    appendInt x 4 = [utod (x / 1000), utod (x / 100 % 10), utod (x / 10 % 10), utod (x % 10)] := by
  unfold appendInt
  rw [if_neg (by omega), if_pos ⟨rfl, h⟩]

theorem formatYMD_valid (d : Date) (h : ValidDate d) :
    formatYMD d = [utod (d.year / 1000), utod (d.year / 100 % 10), utod (d.year / 10 % 10),
      utod (d.year % 10), '-', utod (d.month / 10), utod (d.month % 10), '-',
      utod (d.day / 10), utod (d.day % 10)] := by
  obtain ⟨hy, hm1, hm2, hd1, hd2⟩ := h
  have := daysIn_le d.month d.year
  unfold formatYMD
  rw [appendInt_four _ hy, appendInt_two _ (by omega), appendInt_two _ (by omega)]
  rfl

theorem longYear_utod (y : Nat) (h : y < 10000) (r : Str) :
    longYear (utod (y / 1000) :: utod (y / 100 % 10) :: utod (y / 10 % 10) :: utod (y % 10) :: r)
      = some (y, r) := by
  unfold longYear
  simp only
  rw [isDigit_utod _ (by omega), isDigit_utod _ (by omega), isDigit_utod _ (by omega),
    isDigit_utod _ (by omega), digitVal_utod _ (by omega), digitVal_utod _ (by omega),
    digitVal_utod _ (by omega), digitVal_utod _ (by omega)]
  simp only [Bool.and_self, if_true]
  congr 2
  omega

theorem getnum_fixed_utod (x : Nat) (h : x < 100) (r : Str) :
    getnum (utod (x / 10) :: utod (x % 10) :: r) true = some (x, r) := by
  unfold getnum
  simp only
  rw [isDigit_utod _ (by omega), isDigit_utod _ (by omega), digitVal_utod _ (by omega),
    digitVal_utod _ (by omega)]
  simp only [if_true]
  congr 2
  omega

/-- Round trip: the key written by `Format("2006-01-02")` parses back, with the layout
`2006-01-02`, to the date it was made from. -/
theorem parseYMD_formatYMD (d : Date) (h : ValidDate d) : parseYMD (formatYMD d) = Except.ok d := by
  rw [formatYMD_valid d h]
  obtain ⟨hy, hm1, hm2, hd1, hd2⟩ := h
  have hd3 := daysIn_le d.month d.year
  unfold parseYMD
  rw [longYear_utod _ hy]
  simp only [skip, if_true]
  rw [getnum_fixed_utod _ (by omega)]
  simp only [skip, if_true]
  rw [if_neg (by omega), getnum_fixed_utod _ (by omega)]
  unfold checkDate
  simp [hd1, hd2]
  omega

theorem formatYMD_injective (d1 d2 : Date) (h1 : ValidDate d1) (h2 : ValidDate d2)
    (h : formatYMD d1 = formatYMD d2) : d1 = d2 := by
  have e1 := parseYMD_formatYMD d1 h1
  rw [h, parseYMD_formatYMD d2 h2] at e1
  injection e1 with e1
  exact e1.symm

/-! ## Maps -/

section Maps

variable {V : Type}

theorem mapSet_nil (k : Str) (v : V) : mapSet ([] : GoMap V) k v = [(k, v)] := rfl

theorem mapSet_cons_self (m : GoMap V) (k : Str) (v1 v : V) :
    mapSet ((k, v1) :: m) k v = (k, v) :: m := by
  rw [mapSet, if_pos rfl]

theorem mapSet_cons_of_ne (m : GoMap V) (k1 k : Str) (v1 v : V) (h : k1 ≠ k) :
    mapSet ((k1, v1) :: m) k v = (k1, v1) :: mapSet m k v := by
  rw [mapSet, if_neg h]

theorem mapGet_nil (k : Str) : mapGet ([] : GoMap V) k = none := rfl

theorem mapGet_cons_self (m : GoMap V) (k : Str) (v : V) : mapGet ((k, v) :: m) k = some v := by
  rw [mapGet, if_pos rfl]

theorem mapGet_cons_of_ne (m : GoMap V) (k1 k : Str) (v : V) (h : k1 ≠ k) :
    mapGet ((k1, v) :: m) k = mapGet m k := by
  rw [mapGet, if_neg h]

theorem mapKeys_nil : mapKeys ([] : GoMap V) = [] := rfl

theorem mapKeys_cons (m : GoMap V) (k : Str) (v : V) :
    mapKeys ((k, v) :: m) = k :: mapKeys m := rfl

theorem mapGet_mapSet_self (m : GoMap V) (k : Str) (v : V) : mapGet (mapSet m k v) k = some v := by
  induction m with
  | nil => rw [mapSet_nil, mapGet_cons_self]
  | cons e m ih =>
    obtain ⟨k1, v1⟩ := e
    by_cases h : k1 = k
    · subst h; rw [mapSet_cons_self, mapGet_cons_self]
    · rw [mapSet_cons_of_ne _ _ _ _ _ h, mapGet_cons_of_ne _ _ _ _ h, ih]

theorem mapGet_mapSet_of_ne (m : GoMap V) (k k2 : Str) (v : V) (hne : k2 ≠ k) :
    mapGet (mapSet m k v) k2 = mapGet m k2 := by
  induction m with
  | nil => rw [mapSet_nil, mapGet_cons_of_ne _ _ _ _ (Ne.symm hne)]
  | cons e m ih =>
    obtain ⟨k1, v1⟩ := e
    by_cases h : k1 = k
    · subst h
      rw [mapSet_cons_self, mapGet_cons_of_ne _ _ _ _ (Ne.symm hne),
        mapGet_cons_of_ne _ _ _ _ (Ne.symm hne)]
    · rw [mapSet_cons_of_ne _ _ _ _ _ h]
      by_cases h2 : k1 = k2
      · subst h2; rw [mapGet_cons_self, mapGet_cons_self]
      · rw [mapGet_cons_of_ne _ _ _ _ h2, mapGet_cons_of_ne _ _ _ _ h2, ih]

theorem mapGet_mapSet (m : GoMap V) (k k2 : Str) (v : V) :
    mapGet (mapSet m k v) k2 = if k2 = k then some v else mapGet m k2 := by
  by_cases h : k2 = k
  · subst h; rw [if_pos rfl]; exact mapGet_mapSet_self m k2 v
  · rw [if_neg h]; exact mapGet_mapSet_of_ne m k k2 v h

theorem mem_mapKeys_mapSet (m : GoMap V) (k k2 : Str) (v : V) :
    k2 ∈ mapKeys (mapSet m k v) ↔ k2 = k ∨ k2 ∈ mapKeys m := by
  induction m with
  | nil =>
    rw [mapSet_nil, mapKeys_cons, mapKeys_nil]
    simp only [List.mem_cons]
  | cons e m ih =>
    obtain ⟨k1, v1⟩ := e
    by_cases h : k1 = k
    · subst h
      rw [mapSet_cons_self, mapKeys_cons, mapKeys_cons]
      simp only [List.mem_cons]
      tauto
    · rw [mapSet_cons_of_ne _ _ _ _ _ h, mapKeys_cons, mapKeys_cons]
      simp only [List.mem_cons, ih]
      tauto

theorem nodup_mapKeys_mapSet (m : GoMap V) (k : Str) (v : V) (h : (mapKeys m).Nodup) :
    (mapKeys (mapSet m k v)).Nodup := by
  induction m with
  | nil =>
    rw [mapSet_nil, mapKeys_cons, mapKeys_nil]
    exact List.nodup_singleton k
  | cons e m ih =>
    obtain ⟨k1, v1⟩ := e
    rw [mapKeys_cons, List.nodup_cons] at h
    by_cases hk : k1 = k
    · subst hk
      rw [mapSet_cons_self, mapKeys_cons, List.nodup_cons]
      exact h
    · have hmem : k1 ∉ mapKeys (mapSet m k v) := by
        rw [mem_mapKeys_mapSet]
        rintro (h1 | h1)
        · exact hk h1
        · exact h.1 h1
      rw [mapSet_cons_of_ne _ _ _ _ _ hk, mapKeys_cons, List.nodup_cons]
      exact ⟨hmem, ih h.2⟩

theorem mem_mapKeys_iff (m : GoMap V) (k : Str) : k ∈ mapKeys m ↔ ∃ v, mapGet m k = some v := by
  induction m with
  | nil =>
    rw [mapKeys_nil]
    constructor
    · intro h; cases h
    · rintro ⟨v, hv⟩; cases hv
  | cons e m ih =>
    obtain ⟨k1, v1⟩ := e
    rw [mapKeys_cons, List.mem_cons]
    by_cases h : k1 = k
    · subst h
      rw [mapGet_cons_self]
      exact ⟨fun _ => ⟨v1, rfl⟩, fun _ => Or.inl rfl⟩
    · rw [mapGet_cons_of_ne _ _ _ _ h, ← ih]
      constructor
      · rintro (h1 | h1)
        · exact absurd h1.symm h
        · exact h1
      · intro h1; exact Or.inr h1

theorem length_mapSet (m : GoMap V) (k : Str) (v : V) :
    (mapSet m k v).length = if k ∈ mapKeys m then m.length else m.length + 1 := by
  induction m with
  | nil =>
    rw [mapSet_nil, mapKeys_nil, if_neg (List.not_mem_nil k)]
    rfl
  | cons e m ih =>
    obtain ⟨k1, v1⟩ := e
    by_cases h : k1 = k
    · subst h
      rw [mapSet_cons_self, mapKeys_cons, if_pos (List.mem_cons_self _ _)]
      rfl
    · rw [mapSet_cons_of_ne _ _ _ _ _ h, mapKeys_cons, List.length_cons, ih]
      by_cases hm : k ∈ mapKeys m
      · rw [if_pos hm, if_pos (List.mem_cons_of_mem _ hm)]; rfl
      · have : k ∉ k1 :: mapKeys m := by
          intro hc
          rcases List.mem_cons.mp hc with h1 | h1
          · exact h h1.symm
          · exact hm h1
        rw [if_neg hm, if_neg this]; rfl

/-- An entry found after an assignment is the assigned one or was there before. -/
theorem mapGet_mapSet_cases (m : GoMap V) (k k2 : Str) (v v2 : V)
    (h : mapGet (mapSet m k v) k2 = some v2) : (k2 = k ∧ v2 = v) ∨ mapGet m k2 = some v2 := by
  rw [mapGet_mapSet] at h
  by_cases hk : k2 = k
  · rw [if_pos hk] at h
    injection h with h
    exact Or.inl ⟨hk, h.symm⟩
  · rw [if_neg hk] at h
    exact Or.inr h

end Maps

/-! ## The detail pass -/

theorem detailLoop_nil (mins maxs : List Str) (i : Nat) (mes : GoMap Measure) :
    detailLoop mins maxs i [] mes = (none, mes) := by
  rw [detailLoop]

theorem detailLoop_cons_ok (mins maxs : List Str) (i : Nat) (dt : Str) (rest : List Str)
    (mes : GoMap Measure) (d : Date) (h : parseDMY (trimSpace dt) = Except.ok d) :
    detailLoop mins maxs i (dt :: rest) mes
      = detailLoop mins maxs (i + 1) rest
          (mapSet mes (formatYMD d) ⟨d, msm (mins.getD i []), msm (maxs.getD i [])⟩) := by
  rw [detailLoop, h]

theorem detailLoop_cons_error (mins maxs : List Str) (i : Nat) (dt : Str) (rest : List Str)
    (mes : GoMap Measure) (err : Error) (h : parseDMY (trimSpace dt) = Except.error err) :
    detailLoop mins maxs i (dt :: rest) mes = (some err, mes) := by
  rw [detailLoop, h]

/-- The loop of `getDetail` when every date parses: no error, the last entry of a day wins, the
other keys keep their values. -/
theorem detailLoop_ok (mins maxs : List Str) (ds : Nat → Date) (rest : List Str) :
    ∀ (i : Nat) (mes : GoMap Measure),
      (∀ j, j < rest.length → parseDMY (trimSpace (rest.getD j [])) = Except.ok (ds (i + j))) →
      ∃ m1, detailLoop mins maxs i rest mes = (none, m1) ∧
        (∀ j, j < rest.length →
          (∀ l, j < l → l < rest.length → formatYMD (ds (i + l)) ≠ formatYMD (ds (i + j))) →
          mapGet m1 (formatYMD (ds (i + j)))
            = some ⟨ds (i + j), msm (mins.getD (i + j) []), msm (maxs.getD (i + j) [])⟩) ∧
        (∀ k, (∀ j, j < rest.length → formatYMD (ds (i + j)) ≠ k) → mapGet m1 k = mapGet mes k) := by
  induction rest with
  | nil =>
    intro i mes _
    refine ⟨mes, detailLoop_nil _ _ _ _, ?_, ?_⟩
    · intro j hj; cases hj
    · intro k _; rfl
  | cons dt rest ih =>
    intro i mes hparse
    have h0 : parseDMY (trimSpace dt) = Except.ok (ds i) := by
      have := hparse 0 (Nat.succ_pos _)
      simpa using this
    have hrest : ∀ j, j < rest.length →
        parseDMY (trimSpace (rest.getD j [])) = Except.ok (ds (i + 1 + j)) := by
      intro j hj
      have := hparse (j + 1) (Nat.succ_lt_succ hj)
      rw [List.getD_cons_succ] at this
      rw [this]
      congr 2
      omega
    obtain ⟨m1, hm1, hA, hB⟩ := ih (i + 1)
      (mapSet mes (formatYMD (ds i)) ⟨ds i, msm (mins.getD i []), msm (maxs.getD i [])⟩) hrest
    refine ⟨m1, ?_, ?_, ?_⟩
    · rw [detailLoop_cons_ok _ _ _ _ _ _ _ h0, hm1]
    · intro j hj hlast
      cases j with
      | zero =>
        rw [Nat.add_zero]
        rw [hB (formatYMD (ds i)) ?_, mapGet_mapSet_self]
        intro l hl
        have := hlast (l + 1) (Nat.succ_pos _) (Nat.succ_lt_succ hl)
        rw [Nat.add_zero] at this
        have e : i + (l + 1) = i + 1 + l := by omega
        rw [e] at this
        exact this
      | succ j =>
        have e : i + (j + 1) = i + 1 + j := by omega
        rw [e]
        apply hA j (Nat.lt_of_succ_lt_succ hj)
        intro l hjl hl
        have := hlast (l + 1) (Nat.succ_lt_succ hjl) (Nat.succ_lt_succ hl)
        have e2 : i + (l + 1) = i + 1 + l := by omega
        rw [e2, e] at this
        exact this
    · intro k hk
      rw [hB k ?_, mapGet_mapSet_of_ne]
      · have := hk 0 (Nat.succ_pos _)
        rw [Nat.add_zero] at this
        exact fun e => this e.symm
      · intro j hj
        have := hk (j + 1) (Nat.succ_lt_succ hj)
        have e : i + (j + 1) = i + 1 + j := by omega
        rw [e] at this
        exact this

/-- The loop of `getDetail` fails exactly when one of the dates does not parse. -/
theorem detailLoop_error_iff (mins maxs : List Str) (rest : List Str) :
    ∀ (i : Nat) (mes : GoMap Measure),
      (detailLoop mins maxs i rest mes).1 ≠ none ↔
        ∃ t, t ∈ rest ∧ ∀ d, parseDMY (trimSpace t) ≠ Except.ok d := by
  induction rest with
  | nil =>
    intro i mes
    rw [detailLoop_nil]
    constructor
    · intro h; exact absurd rfl h
    · rintro ⟨t, ht, -⟩; cases ht
  | cons dt rest ih =>
    intro i mes
    cases hp : parseDMY (trimSpace dt) with
    | error err =>
      rw [detailLoop_cons_error _ _ _ _ _ _ _ hp]
      constructor
      · intro _
        exact ⟨dt, List.mem_cons_self _ _, fun d hd => by rw [hp] at hd; cases hd⟩
      · intro _ h; cases h
    | ok d =>
      rw [detailLoop_cons_ok _ _ _ _ _ _ _ hp, ih]
      constructor
      · rintro ⟨t, ht, hbad⟩
        exact ⟨t, List.mem_cons_of_mem _ ht, hbad⟩
      · rintro ⟨t, ht, hbad⟩
        rcases List.mem_cons.mp ht with h1 | h1
        · subst h1; exact absurd hp (hbad d)
        · exact ⟨t, h1, hbad⟩

/-- The error of the loop of `getDetail` does not depend on the level cells. -/
theorem detailLoop_error_cells (mins maxs mins2 maxs2 : List Str) (rest : List Str) :
    ∀ (i i2 : Nat) (mes mes2 : GoMap Measure),
      (detailLoop mins maxs i rest mes).1 = (detailLoop mins2 maxs2 i2 rest mes2).1 := by
  induction rest with
  | nil => intro i i2 mes mes2; rw [detailLoop_nil, detailLoop_nil]
  | cons dt rest ih =>
    intro i i2 mes mes2
    cases hp : parseDMY (trimSpace dt) with
    | error err => rw [detailLoop_cons_error _ _ _ _ _ _ _ hp, detailLoop_cons_error _ _ _ _ _ _ _ hp]
    | ok d =>
      rw [detailLoop_cons_ok _ _ _ _ _ _ _ hp, detailLoop_cons_ok _ _ _ _ _ _ _ hp]
      exact ih _ _ _ _

/-- A property of the entries that holds before the loop of `getDetail` and for every entry the
loop writes holds afterwards. -/
theorem detailLoop_inv (P : Str → Measure → Prop) (mins maxs : List Str) (rest : List Str) :
    ∀ (i : Nat) (mes : GoMap Measure),
      (∀ k v, mapGet mes k = some v → P k v) →
      (∀ j d, j < rest.length → parseDMY (trimSpace (rest.getD j [])) = Except.ok d →
        P (formatYMD d) ⟨d, msm (mins.getD (i + j) []), msm (maxs.getD (i + j) [])⟩) →
      ∀ k v, mapGet (detailLoop mins maxs i rest mes).2 k = some v → P k v := by
  induction rest with
  | nil =>
    intro i mes hmes _ k v h
    rw [detailLoop_nil] at h
    exact hmes k v h
  | cons dt rest ih =>
    intro i mes hmes hw k v h
    cases hp : parseDMY (trimSpace dt) with
    | error err =>
      rw [detailLoop_cons_error _ _ _ _ _ _ _ hp] at h
      exact hmes k v h
    | ok d =>
      rw [detailLoop_cons_ok _ _ _ _ _ _ _ hp] at h
      refine ih (i + 1) _ ?_ ?_ k v h
      · intro k2 v2 h2
        rcases mapGet_mapSet_cases _ _ _ _ _ h2 with ⟨hk, hv⟩ | h3
        · subst hk; subst hv
          have := hw 0 d (Nat.succ_pos _) (by simpa using hp)
          rw [Nat.add_zero] at this
          exact this
        · exact hmes k2 v2 h3
      · intro j d2 hj hp2
        have := hw (j + 1) d2 (Nat.succ_lt_succ hj) (by rw [List.getD_cons_succ]; exact hp2)
        have e : i + (j + 1) = i + 1 + j := by omega
        rw [e] at this
        exact this

theorem exists_last_index (P : Nat → Prop) (K i : Nat) (hi : i < K) (hP : P i) :
    ∃ j, i ≤ j ∧ j < K ∧ P j ∧ ∀ l, j < l → l < K → ¬ P l := by
  classical
  refine ⟨Nat.findGreatest P (K - 1), Nat.le_findGreatest (by omega) hP, ?_,
    Nat.findGreatest_spec (by omega : i ≤ K - 1) hP, ?_⟩
  · have := Nat.findGreatest_le (P := P) (K - 1)
    omega
  · intro l hjl hl
    exact Nat.findGreatest_is_greatest hjl (by omega)

theorem getDetail_of_ok (client : Client) (n : Nat) (url : Str) (doc : Document)
    (m : GoMap Measure) (hget : client n url = Except.ok doc)
    (hmins : doc.mins.length = doc.dates.length) (hmaxs : doc.maxs.length = doc.dates.length) :
    getDetail client n url m = detailLoop doc.mins doc.maxs 0 doc.dates m := by
  unfold getDetail
  rw [hget]
  dsimp only
  unfold detailOfDocument
  rw [if_neg]
  rintro (h | h)
  · exact h hmins.symm
  · exact h hmaxs.symm

theorem getDetail_of_mismatch (client : Client) (n : Nat) (url : Str) (doc : Document)
    (m : GoMap Measure) (hget : client n url = Except.ok doc)
    (hlen : doc.dates.length ≠ doc.mins.length ∨ doc.dates.length ≠ doc.maxs.length) :
    getDetail client n url m = (some sizeMismatch, m) := by
  unfold getDetail
  rw [hget]
  dsimp only
  unfold detailOfDocument
  rw [if_pos hlen]

theorem getDetail_of_error (client : Client) (n : Nat) (url : Str) (err : Error)
    (m : GoMap Measure) (hget : client n url = Except.error err) :
    getDetail client n url m = (some err, m) := by
  unfold getDetail
  rw [hget]

/-- The detail pass on a page whose three tables have the same length and whose dates all
parse. -/
theorem detail_merge_core (client : Client) (n : Nat) (url : Str) (doc : Document)
    (ds : Nat → Date) (m : GoMap Measure) (hget : client n url = Except.ok doc)
    (hmins : doc.mins.length = doc.dates.length) (hmaxs : doc.maxs.length = doc.dates.length)
    (hparse : ∀ i, i < doc.dates.length →
      parseDMY (trimSpace (doc.dates.getD i [])) = Except.ok (ds i)) :
    ∃ m1, getDetail client n url m = (none, m1) ∧
      (∀ i, i < doc.dates.length → ∃ j, i ≤ j ∧ j < doc.dates.length ∧ ds j = ds i ∧
        (∀ l, j < l → l < doc.dates.length → ds l ≠ ds i) ∧
        mapGet m1 (formatYMD (ds i))
          = some ⟨ds j, msm (doc.mins.getD j []), msm (doc.maxs.getD j [])⟩) ∧
      (∀ k, (∀ i, i < doc.dates.length → formatYMD (ds i) ≠ k) → mapGet m1 k = mapGet m k) ∧
      (∀ k, k ∈ mapKeys m1 → k ∈ mapKeys m ∨ ∃ i, i < doc.dates.length ∧ k = formatYMD (ds i)) := by
  have hvalid : ∀ i, i < doc.dates.length → ValidDate (ds i) :=
    fun i hi => parseDMY_valid _ _ (hparse i hi)
  obtain ⟨m1, hm1, hA, hB⟩ := detailLoop_ok doc.mins doc.maxs ds doc.dates 0 m
    (by intro j hj; rw [Nat.zero_add]; exact hparse j hj)
  refine ⟨m1, by rw [getDetail_of_ok client n url doc m hget hmins hmaxs, hm1], ?_, ?_, ?_⟩
  · intro i hi
    obtain ⟨j, hij, hj, hPj, hlast⟩ :=
      exists_last_index (fun l => ds l = ds i) doc.dates.length i hi rfl
    refine ⟨j, hij, hj, hPj, hlast, ?_⟩
    have := hA j hj (by
      intro l hjl hl
      rw [Nat.zero_add, Nat.zero_add]
      intro e
      have e2 := formatYMD_injective _ _ (hvalid l hl) (hvalid j hj) e
      exact hlast l hjl hl (e2.trans hPj))
    rw [Nat.zero_add] at this
    rw [← hPj]
    exact this
  · intro k hk
    exact hB k (by intro j hj; rw [Nat.zero_add]; exact hk j hj)
  · intro k hk
    by_cases hex : ∃ i, i < doc.dates.length ∧ k = formatYMD (ds i)
    · exact Or.inr hex
    · left
      rw [mem_mapKeys_iff] at hk ⊢
      rw [hB k (by
        intro j hj e
        rw [Nat.zero_add] at e
        exact hex ⟨j, hj, e.symm⟩)] at hk
      exact hk

/-- C7. Detail pass merge in `getDetail`: when the three cell sequences have the same length `K`
and every date parses (to `ds i`), `getDetail` succeeds; in the resulting map the key of each
date `ds i` holds the measure built at the largest index `j` whose date is the same day; every
key that is not the key of one of the dates keeps its old value; there are no other keys. -/
theorem getDetail_merge (client : Client) (n : Nat) (url : Str) (doc : Document)
    (ds : Nat → Date) (m : GoMap Measure) (hget : client n url = Except.ok doc)
    (hmins : doc.mins.length = doc.dates.length) (hmaxs : doc.maxs.length = doc.dates.length)
    (hparse : ∀ i, i < doc.dates.length →
      parseDMY (trimSpace (doc.dates.getD i [])) = Except.ok (ds i)) :
    ∃ m1, getDetail client n url m = (none, m1) ∧
      (∀ i, i < doc.dates.length → ∃ j, i ≤ j ∧ j < doc.dates.length ∧ ds j = ds i ∧
        (∀ l, j < l → l < doc.dates.length → ds l ≠ ds i) ∧
        mapGet m1 (formatYMD (ds i))
          = some ⟨ds j, msm (doc.mins.getD j []), msm (doc.maxs.getD j [])⟩) ∧
      (∀ k, (∀ i, i < doc.dates.length → formatYMD (ds i) ≠ k) → mapGet m1 k = mapGet m k) ∧
      (∀ k, k ∈ mapKeys m1 → k ∈ mapKeys m ∨ ∃ i, i < doc.dates.length ∧ k = formatYMD (ds i)) :=
  detail_merge_core client n url doc ds m hget hmins hmaxs hparse

/-- C7, witness: the detail tables with dates `1.6.2023`, `2.6.2023`, minimums `700.1 msm`,
`700.2 msm` and maximums `701.1 msm`, `701.2 msm`, merged into a map that holds a summary entry
for the first day. -/
theorem getDetail_merge_witness :
    ∃ m1, getDetail (twoPages exDetail exDetail) 1 gruyereURL
        [("2023-06-01".toList, ⟨⟨2023, 6, 1⟩, 1401 / 2, 1401 / 2⟩)] = (none, m1) ∧
      mapGet m1 "2023-06-01".toList
        = some ⟨⟨2023, 6, 1⟩, msm "700.1 msm".toList, msm "701.1 msm".toList⟩ ∧
      mapGet m1 "2023-06-02".toList
        = some ⟨⟨2023, 6, 2⟩, msm "700.2 msm".toList, msm "701.2 msm".toList⟩ := by
  obtain ⟨m1, h1, h2, -, -⟩ := getDetail_merge (twoPages exDetail exDetail) 1 gruyereURL exDetail
    (fun i => if i = 0 then ⟨2023, 6, 1⟩ else ⟨2023, 6, 2⟩)
    [("2023-06-01".toList, ⟨⟨2023, 6, 1⟩, 1401 / 2, 1401 / 2⟩)] rfl rfl rfl
    (by
      intro i hi
      have hi2 : i < 2 := hi
      interval_cases i <;> decide)
  refine ⟨m1, h1, ?_, ?_⟩
  · obtain ⟨j, -, hj, hdj, -, hget⟩ := h2 0 (by decide)
    have hj2 : j < 2 := hj
    interval_cases j
    · exact hget
    · exact absurd hdj (by decide)
  · obtain ⟨j, hij, hj, -, -, hget⟩ := h2 1 (by decide)
    have hj2 : j < 2 := hj
    interval_cases j
    exact hget

theorem getD_mem_of_lt (l : List Str) (i : Nat) (h : i < l.length) : l.getD i [] ∈ l := by
  induction l generalizing i with
  | nil => cases h
  | cons x l ih =>
    cases i with
    | zero => exact List.mem_cons_self _ _
    | succ i =>
      rw [List.getD_cons_succ]
      exact List.mem_cons_of_mem _ (ih i (Nat.lt_of_succ_lt_succ h))

/-- C9. Split failure policy of the detail pass: on a page whose three tables have the same
length, `getDetail` fails exactly when some date cell, trimmed, does not parse; the error is the
same whatever the level cells hold; every entry of the map afterwards is an old entry or was
built from an index `j` as `{d, msm(mins[j]), msm(maxs[j])}`; and when there is no error, the key
of every date cell holds the measure `{d, msm(mins[j]), msm(maxs[j])}` of the last index `j` of
that day, in which a level cell that the pattern does not match is recorded as 0. -/
theorem getDetail_error_iff (client : Client) (n : Nat) (url : Str) (doc : Document)
    (m : GoMap Measure) (hget : client n url = Except.ok doc)
    (hmins : doc.mins.length = doc.dates.length) (hmaxs : doc.maxs.length = doc.dates.length) :
    ((getDetail client n url m).1 ≠ none ↔
      ∃ t, t ∈ doc.dates ∧ ∀ d, parseDMY (trimSpace t) ≠ Except.ok d) ∧
    (∀ (client2 : Client) (n2 : Nat) (url2 : Str) (doc2 : Document) (m2 : GoMap Measure),
      client2 n2 url2 = Except.ok doc2 → doc2.dates = doc.dates →
      doc2.mins.length = doc.dates.length → doc2.maxs.length = doc.dates.length →
      (getDetail client2 n2 url2 m2).1 = (getDetail client n url m).1) ∧
    (∀ k v, mapGet (getDetail client n url m).2 k = some v →
      mapGet m k = some v ∨
      ∃ j d, j < doc.dates.length ∧ parseDMY (trimSpace (doc.dates.getD j [])) = Except.ok d ∧
        k = formatYMD d ∧ v = ⟨d, msm (doc.mins.getD j []), msm (doc.maxs.getD j [])⟩ ∧
        (findStringSubmatch levelRe (doc.mins.getD j []) = none → v.Min = 0) ∧
        (findStringSubmatch levelRe (doc.maxs.getD j []) = none → v.Max = 0)) ∧
    ((getDetail client n url m).1 = none →
      ∀ i, i < doc.dates.length → ∃ j d, i ≤ j ∧ j < doc.dates.length ∧
        parseDMY (trimSpace (doc.dates.getD i [])) = Except.ok d ∧
        parseDMY (trimSpace (doc.dates.getD j [])) = Except.ok d ∧
        (∀ l, j < l → l < doc.dates.length →
          parseDMY (trimSpace (doc.dates.getD l [])) ≠ Except.ok d) ∧
        mapGet (getDetail client n url m).2 (formatYMD d)
          = some ⟨d, msm (doc.mins.getD j []), msm (doc.maxs.getD j [])⟩ ∧
        (findStringSubmatch levelRe (doc.mins.getD j []) = none →
          mapGet (getDetail client n url m).2 (formatYMD d)
            = some ⟨d, 0, msm (doc.maxs.getD j [])⟩) ∧
        (findStringSubmatch levelRe (doc.maxs.getD j []) = none →
          mapGet (getDetail client n url m).2 (formatYMD d)
            = some ⟨d, msm (doc.mins.getD j []), 0⟩)) := by
  have hiff : (getDetail client n url m).1 ≠ none ↔
      ∃ t, t ∈ doc.dates ∧ ∀ d, parseDMY (trimSpace t) ≠ Except.ok d := by
    rw [getDetail_of_ok client n url doc m hget hmins hmaxs]
    exact detailLoop_error_iff _ _ _ _ _
  refine ⟨hiff, ?_, ?_, ?_⟩
  · intro client2 n2 url2 doc2 m2 hget2 hd hmins2 hmaxs2
    rw [getDetail_of_ok client n url doc m hget hmins hmaxs,
      getDetail_of_ok client2 n2 url2 doc2 m2 hget2 (by rw [hd]; exact hmins2)
      (by rw [hd]; exact hmaxs2), hd]
    exact detailLoop_error_cells _ _ _ _ _ _ _ _ _
  · rw [getDetail_of_ok client n url doc m hget hmins hmaxs]
    refine detailLoop_inv (fun k v => mapGet m k = some v ∨
      ∃ j d, j < doc.dates.length ∧ parseDMY (trimSpace (doc.dates.getD j [])) = Except.ok d ∧
        k = formatYMD d ∧ v = ⟨d, msm (doc.mins.getD j []), msm (doc.maxs.getD j [])⟩ ∧
        (findStringSubmatch levelRe (doc.mins.getD j []) = none → v.Min = 0) ∧
        (findStringSubmatch levelRe (doc.maxs.getD j []) = none → v.Max = 0))
      doc.mins doc.maxs doc.dates 0 m (fun k v h => Or.inl h) ?_
    intro j d hj hp
    right
    rw [Nat.zero_add]
    exact ⟨j, d, hj, hp, rfl, rfl, fun h => msm_of_find_none _ h, fun h => msm_of_find_none _ h⟩
  · intro hnone
    have hall : ∀ i, ∃ d, i < doc.dates.length →
        parseDMY (trimSpace (doc.dates.getD i [])) = Except.ok d := by
      intro i
      cases hp : parseDMY (trimSpace (doc.dates.getD i [])) with
      | ok d => exact ⟨d, fun _ => rfl⟩
      | error err =>
        refine ⟨⟨0, 0, 0⟩, fun hi => ?_⟩
        exfalso
        exact hiff.mpr ⟨_, getD_mem_of_lt _ i hi, fun d hd => by rw [hp] at hd; cases hd⟩ hnone
    choose ds hds using hall
    obtain ⟨m1, hm1, hlook, -, -⟩ :=
      detail_merge_core client n url doc ds m hget hmins hmaxs hds
    intro i hi
    obtain ⟨j, hij, hj, hsame, hlast, hentry⟩ := hlook i hi
    rw [hm1]
    refine ⟨j, ds i, hij, hj, hds i hi, by rw [← hsame]; exact hds j hj, ?_, ?_, ?_, ?_⟩
    · intro l hjl hl hp
      have := hds l hl
      rw [this] at hp
      injection hp with hp
      exact hlast l hjl hl hp
    · rw [hentry, hsame]
    · intro hno
      rw [hentry, hsame, msm_of_find_none _ hno]
    · intro hno
      rw [hentry, hsame, msm_of_find_none _ hno]

/-- C9, witness: one date that parses, a minimum cell without a number and a maximum cell with
one; there is no error and the entry of that day holds the minimum 0 and the maximum 700.5. -/
theorem getDetail_error_iff_witness :
    (getDetail (twoPages exDetail (detailPage ["1.6.2023".toList] ["n/a".toList]
        ["700.5 msm".toList])) 1 gruyereURL []).1 = none ∧
    mapGet (getDetail (twoPages exDetail (detailPage ["1.6.2023".toList] ["n/a".toList]
        ["700.5 msm".toList])) 1 gruyereURL []).2 "2023-06-01".toList
      = some ⟨⟨2023, 6, 1⟩, 0, 1401 / 2⟩ := by
  have h := getDetail_error_iff (twoPages exDetail (detailPage ["1.6.2023".toList]
    ["n/a".toList] ["700.5 msm".toList])) 1 gruyereURL (detailPage ["1.6.2023".toList]
    ["n/a".toList] ["700.5 msm".toList]) [] rfl rfl rfl
  have hnone : (getDetail (twoPages exDetail (detailPage ["1.6.2023".toList] ["n/a".toList]
      ["700.5 msm".toList])) 1 gruyereURL []).1 = none := by
    by_contra hne
    obtain ⟨t, ht, hbad⟩ := h.1.mp hne
    have ht2 : t = "1.6.2023".toList := by
      have : t ∈ ["1.6.2023".toList] := ht
      simpa using this
    subst ht2
    exact hbad ⟨2023, 6, 1⟩ (by decide)
  refine ⟨hnone, ?_⟩
  obtain ⟨j, d, -, hj, hd, -, -, -, hzero, -⟩ := h.2.2.2 hnone 0 (Nat.succ_pos 0)
  have hj1 : j < 1 := hj
  have hj0 : j = 0 := by omega
  subst hj0
  have hd2 : Except.ok (⟨2023, 6, 1⟩ : Date) = Except.ok d := hd
  injection hd2 with hd2
  subst hd2
  have hz := hzero (by decide)
  have hmax : msm ((detailPage ["1.6.2023".toList] ["n/a".toList]
      ["700.5 msm".toList]).maxs.getD 0 []) = 1401 / 2 := msm_700_5
  rw [hmax] at hz
  exact hz

/-! ## The loop of `GetLevel` -/

theorem gruyere_ne_schiffenen : gruyere ≠ schiffenen := by decide

theorem summaryLake_name (d0 d1 : Date) (item : List Str) :
    (summaryLake d0 d1 item).Name = rowName item := rfl

theorem isDetailRow_iff (item : List Str) :
    isDetailRow item = true ↔ rowName item = gruyere ∨ rowName item = schiffenen := by
  unfold isDetailRow
  simp only [Bool.or_eq_true, decide_eq_true_eq]

theorem rowLoop_nil (client : Client) (d0 d1 : Date) (n : Nat) (result : Lakes) :
    rowLoop client d0 d1 [] n result = Except.ok result := by
  rw [rowLoop]

theorem rowLoop_plain (client : Client) (d0 d1 : Date) (item : List Str)
    (rest : List (List Str)) (n : Nat) (result : Lakes) (h : isDetailRow item = false) :
    rowLoop client d0 d1 (item :: rest) n result
      = rowLoop client d0 d1 rest n (mapSet result (rowName item) (summaryLake d0 d1 item)) := by
  have hn : ¬ (rowName item = gruyere ∨ rowName item = schiffenen) := by
    rw [← isDetailRow_iff, h]; exact Bool.false_ne_true
  push_neg at hn
  rw [rowLoop]
  simp only [summaryLake_name]
  rw [if_neg hn.1, if_neg hn.2]

theorem rowLoop_detail_error (client : Client) (d0 d1 : Date) (item : List Str)
    (rest : List (List Str)) (n : Nat) (result : Lakes) (err : Error) (mes : GoMap Measure)
    (h : isDetailRow item = true)
    (hd : getDetail client n (detailURL (rowName item)) (summaryLake d0 d1 item).Measures
      = (some err, mes)) :
    rowLoop client d0 d1 (item :: rest) n result = Except.error err := by
  rw [rowLoop]
  simp only [summaryLake_name]
  rcases (isDetailRow_iff item).mp h with hg | hs
  · rw [if_pos hg]
    unfold detailURL at hd
    rw [if_pos hg] at hd
    rw [hd]
  · have hg : rowName item ≠ gruyere := by rw [hs]; exact gruyere_ne_schiffenen.symm
    rw [if_neg hg, if_pos hs]
    unfold detailURL at hd
    rw [if_neg hg] at hd
    rw [hd]

theorem rowLoop_detail_ok (client : Client) (d0 d1 : Date) (item : List Str)
    (rest : List (List Str)) (n : Nat) (result : Lakes) (mes : GoMap Measure)
    (h : isDetailRow item = true)
    (hd : getDetail client n (detailURL (rowName item)) (summaryLake d0 d1 item).Measures
      = (none, mes)) :
    rowLoop client d0 d1 (item :: rest) n result
      = rowLoop client d0 d1 rest (n + 1)
          (mapSet result (rowName item) { summaryLake d0 d1 item with Measures := mes }) := by
  rw [rowLoop]
  simp only [summaryLake_name]
  rcases (isDetailRow_iff item).mp h with hg | hs
  · rw [if_pos hg]
    unfold detailURL at hd
    rw [if_pos hg] at hd
    rw [hd]
  · have hg : rowName item ≠ gruyere := by rw [hs]; exact gruyere_ne_schiffenen.symm
    rw [if_neg hg, if_pos hs]
    unfold detailURL at hd
    rw [if_neg hg] at hd
    rw [hd]

/-- One step of the loop, in all its cases. -/
theorem rowLoop_cons_cases (client : Client) (d0 d1 : Date) (item : List Str)
    (rest : List (List Str)) (n : Nat) (result : Lakes) :
    (isDetailRow item = false ∧
      rowLoop client d0 d1 (item :: rest) n result
        = rowLoop client d0 d1 rest n (mapSet result (rowName item) (summaryLake d0 d1 item))) ∨
    (isDetailRow item = true ∧ ∃ err mes,
      getDetail client n (detailURL (rowName item)) (summaryLake d0 d1 item).Measures
        = (some err, mes) ∧
      rowLoop client d0 d1 (item :: rest) n result = Except.error err) ∨
    (isDetailRow item = true ∧ ∃ mes,
      getDetail client n (detailURL (rowName item)) (summaryLake d0 d1 item).Measures
        = (none, mes) ∧
      rowLoop client d0 d1 (item :: rest) n result
        = rowLoop client d0 d1 rest (n + 1)
            (mapSet result (rowName item) { summaryLake d0 d1 item with Measures := mes })) := by
  cases h : isDetailRow item with
  | false => exact Or.inl ⟨rfl, rowLoop_plain client d0 d1 item rest n result h⟩
  | true =>
    right
    cases hd : getDetail client n (detailURL (rowName item)) (summaryLake d0 d1 item).Measures with
    | mk e mes =>
      cases e with
      | none => exact Or.inr ⟨rfl, mes, rfl, rowLoop_detail_ok client d0 d1 item rest n result mes h hd⟩
      | some err =>
        exact Or.inl ⟨rfl, err, mes, rfl,
          rowLoop_detail_error client d0 d1 item rest n result err mes h hd⟩

theorem detailCount_nil : detailCount [] = 0 := rfl

theorem detailCount_cons (item : List Str) (rows : List (List Str)) :
    detailCount (item :: rows) = (if isDetailRow item = true then 1 else 0) + detailCount rows := by
  unfold detailCount
  by_cases h : isDetailRow item = true
  · rw [List.filter_cons_of_pos h, if_pos h, List.length_cons]; omega
  · rw [List.filter_cons_of_neg h, if_neg h]; omega

/-- Processing a list of rows in two parts. -/
theorem rowLoop_append (client : Client) (d0 d1 : Date) (pre rest : List (List Str)) :
    ∀ (n : Nat) (result r : Lakes), rowLoop client d0 d1 pre n result = Except.ok r →
      rowLoop client d0 d1 (pre ++ rest) n result
        = rowLoop client d0 d1 rest (n + detailCount pre) r := by
  induction pre with
  | nil =>
    intro n result r h
    rw [rowLoop_nil] at h
    injection h with h
    rw [h, List.nil_append, detailCount_nil, Nat.add_zero]
  | cons item pre ih =>
    intro n result r h
    rw [List.cons_append, detailCount_cons]
    rcases rowLoop_cons_cases client d0 d1 item pre n result with
      ⟨hp, e⟩ | ⟨hp, err, mes, hd, e⟩ | ⟨hp, mes, hd, e⟩
    · rw [rowLoop_plain _ _ _ _ _ _ _ hp, if_neg (by rw [hp]; exact Bool.false_ne_true),
        Nat.zero_add]
      rw [e] at h
      exact ih _ _ _ h
    · rw [e] at h; cases h
    · rw [rowLoop_detail_ok _ _ _ _ _ _ _ mes hp hd, if_pos hp]
      rw [e] at h
      rw [ih _ _ _ h]
      congr 1
      omega

/-- A property of the stored lakes that holds for every record the loop stores holds for the
result. -/
theorem rowLoop_inv (Q : Str → Lake → Prop) (client : Client) (d0 d1 : Date)
    (rows : List (List Str))
    (hplain : ∀ item, item ∈ rows → isDetailRow item = false →
      Q (rowName item) (summaryLake d0 d1 item))
    (hdetail : ∀ item n mes, item ∈ rows → isDetailRow item = true →
      getDetail client n (detailURL (rowName item)) (summaryLake d0 d1 item).Measures
        = (none, mes) →
      Q (rowName item) { summaryLake d0 d1 item with Measures := mes }) :
    ∀ (n : Nat) (result lakes : Lakes),
      (∀ name lake, mapGet result name = some lake → Q name lake) →
      rowLoop client d0 d1 rows n result = Except.ok lakes →
      ∀ name lake, mapGet lakes name = some lake → Q name lake := by
  induction rows with
  | nil =>
    intro n result lakes hres h
    rw [rowLoop_nil] at h
    injection h with h
    rw [← h]; exact hres
  | cons item rows ih =>
    intro n result lakes hres h
    have ih2 := ih (fun it hit => hplain it (List.mem_cons_of_mem _ hit))
      (fun it n mes hit => hdetail it n mes (List.mem_cons_of_mem _ hit))
    rcases rowLoop_cons_cases client d0 d1 item rows n result with
      ⟨hp, e⟩ | ⟨hp, err, mes, hd, e⟩ | ⟨hp, mes, hd, e⟩
    · rw [e] at h
      refine ih2 _ _ _ ?_ h
      intro name lake hg
      rcases mapGet_mapSet_cases _ _ _ _ _ hg with ⟨hk, hv⟩ | h3
      · subst hk; subst hv; exact hplain item (List.mem_cons_self _ _) hp
      · exact hres name lake h3
    · rw [e] at h; cases h
    · rw [e] at h
      refine ih2 _ _ _ ?_ h
      intro name lake hg
      rcases mapGet_mapSet_cases _ _ _ _ _ hg with ⟨hk, hv⟩ | h3
      · subst hk; subst hv; exact hdetail item n mes (List.mem_cons_self _ _) hp hd
      · exact hres name lake h3

/-- The keys of the result of the loop: the keys it started with and the names of the rows. -/
theorem rowLoop_keys (client : Client) (d0 d1 : Date) (rows : List (List Str)) :
    ∀ (n : Nat) (result lakes : Lakes), rowLoop client d0 d1 rows n result = Except.ok lakes →
      (∀ name, name ∈ mapKeys lakes ↔ name ∈ mapKeys result ∨ name ∈ rows.map rowName) ∧
      ((mapKeys result).Nodup → (mapKeys lakes).Nodup) := by
  induction rows with
  | nil =>
    intro n result lakes h
    rw [rowLoop_nil] at h
    injection h with h
    subst h
    refine ⟨fun name => ?_, fun hn => hn⟩
    simp only [List.map_nil, List.not_mem_nil, or_false]
  | cons item rows ih =>
    intro n result lakes h
    rcases rowLoop_cons_cases client d0 d1 item rows n result with
      ⟨hp, e⟩ | ⟨hp, err, mes, hd, e⟩ | ⟨hp, mes, hd, e⟩
    · rw [e] at h
      obtain ⟨h1, h2⟩ := ih _ _ _ h
      refine ⟨fun name => ?_, fun hn => h2 (nodup_mapKeys_mapSet _ _ _ hn)⟩
      rw [h1, mem_mapKeys_mapSet, List.map_cons, List.mem_cons]
      tauto
    · rw [e] at h; cases h
    · rw [e] at h
      obtain ⟨h1, h2⟩ := ih _ _ _ h
      refine ⟨fun name => ?_, fun hn => h2 (nodup_mapKeys_mapSet _ _ _ hn)⟩
      rw [h1, mem_mapKeys_mapSet, List.map_cons, List.mem_cons]
      tauto

/-! ## `GetLevel` -/

theorem GetLevel_eq (client : Client) (doc : Document) (d0 d1 : Date)
    (hpage : client 0 pageURL = Except.ok doc)
    (h0 : parseDMY (trimSpace (eqText doc.header 2)) = Except.ok d0)
    (h1 : parseDMY (trimSpace (eqText doc.header 3)) = Except.ok d1) :
    GetLevel client = rowLoop client d0 d1 doc.body 1 [] := by
  unfold GetLevel
  rw [hpage]
  dsimp only
  unfold levelOfDocument
  rw [h0]
  dsimp only
  rw [h1]

theorem GetLevel_ok (client : Client) (lakes : Lakes) (h : GetLevel client = Except.ok lakes) :
    ∃ doc d0 d1, client 0 pageURL = Except.ok doc ∧
      parseDMY (trimSpace (eqText doc.header 2)) = Except.ok d0 ∧
      parseDMY (trimSpace (eqText doc.header 3)) = Except.ok d1 ∧
      rowLoop client d0 d1 doc.body 1 [] = Except.ok lakes := by
  cases hpage : client 0 pageURL with
  | error err =>
    unfold GetLevel at h
    rw [hpage] at h
    cases h
  | ok doc =>
    cases h0 : parseDMY (trimSpace (eqText doc.header 2)) with
    | error err =>
      unfold GetLevel at h
      rw [hpage] at h
      dsimp only at h
      unfold levelOfDocument at h
      rw [h0] at h
      cases h
    | ok d0 =>
      cases h1 : parseDMY (trimSpace (eqText doc.header 3)) with
      | error err =>
        unfold GetLevel at h
        rw [hpage] at h
        dsimp only at h
        unfold levelOfDocument at h
        rw [h0] at h
        dsimp only at h
        rw [h1] at h
        cases h
      | ok d1 =>
        rw [GetLevel_eq client doc d0 d1 hpage h0 h1] at h
        exact ⟨doc, d0, d1, rfl, h0, h1, h⟩

/-- The two summary measurements of a row. -/
theorem summaryLake_measures (d0 d1 : Date) (item : List Str) (k : Str) (v : Measure)
    (h : mapGet (summaryLake d0 d1 item).Measures k = some v) :
    (k = formatYMD d1 ∧
        v = ⟨d1, msm (trimSpace (eqText item 3)), msm (trimSpace (eqText item 3))⟩) ∨
      (k = formatYMD d0 ∧
        v = ⟨d0, msm (trimSpace (eqText item 2)), msm (trimSpace (eqText item 2))⟩) := by
  unfold summaryLake at h
  dsimp only at h
  rcases mapGet_mapSet_cases _ _ _ _ _ h with h1 | h1
  · exact Or.inl h1
  · rcases mapGet_mapSet_cases _ _ _ _ _ h1 with h2 | h2
    · exact Or.inr h2
    · cases h2

theorem summaryLake_get_second (d0 d1 : Date) (item : List Str) :
    mapGet (summaryLake d0 d1 item).Measures (formatYMD d1)
      = some ⟨d1, msm (trimSpace (eqText item 3)), msm (trimSpace (eqText item 3))⟩ := by
  unfold summaryLake
  dsimp only
  rw [mapGet_mapSet_self]

theorem summaryLake_get_first (d0 d1 : Date) (item : List Str)
    (hne : formatYMD d0 ≠ formatYMD d1) :
    mapGet (summaryLake d0 d1 item).Measures (formatYMD d0)
      = some ⟨d0, msm (trimSpace (eqText item 2)), msm (trimSpace (eqText item 2))⟩ := by
  unfold summaryLake
  dsimp only
  rw [mapGet_mapSet_of_ne _ _ _ _ hne, mapGet_mapSet_self]

theorem summaryLake_same_day (d : Date) (item : List Str) :
    (summaryLake d d item).Measures
      = [(formatYMD d, ⟨d, msm (trimSpace (eqText item 3)), msm (trimSpace (eqText item 3))⟩)] := by
  unfold summaryLake
  dsimp only
  rw [mapSet_nil, mapSet_cons_self]

theorem summaryLake_length (d0 d1 : Date) (item : List Str) (hv0 : ValidDate d0)
    (hv1 : ValidDate d1) :
    (summaryLake d0 d1 item).Measures.length = if d0 = d1 then 1 else 2 := by
  by_cases h : d0 = d1
  · subst h
    rw [summaryLake_same_day, if_pos rfl]
    rfl
  · have hne : formatYMD d0 ≠ formatYMD d1 := fun e => h (formatYMD_injective d0 d1 hv0 hv1 e)
    rw [if_neg h]
    unfold summaryLake
    dsimp only
    rw [mapSet_nil, mapSet_cons_of_ne _ _ _ _ _ hne, mapSet_nil]
    rfl

/-- A property of the entries that holds before `getDetail` and for every entry it can write
holds afterwards, whether it fails or not. -/
theorem getDetail_inv (P : Str → Measure → Prop) (client : Client) (n : Nat) (url : Str)
    (mes : GoMap Measure) (hmes : ∀ k v, mapGet mes k = some v → P k v)
    (hw : ∀ doc j d, client n url = Except.ok doc → j < doc.dates.length →
      parseDMY (trimSpace (doc.dates.getD j [])) = Except.ok d →
      P (formatYMD d) ⟨d, msm (doc.mins.getD j []), msm (doc.maxs.getD j [])⟩) :
    ∀ k v, mapGet (getDetail client n url mes).2 k = some v → P k v := by
  cases hget : client n url with
  | error err =>
    rw [getDetail_of_error client n url err mes hget]
    exact hmes
  | ok doc =>
    by_cases hlen : doc.dates.length ≠ doc.mins.length ∨ doc.dates.length ≠ doc.maxs.length
    · rw [getDetail_of_mismatch client n url doc mes hget hlen]
      exact hmes
    · push_neg at hlen
      rw [getDetail_of_ok client n url doc mes hget hlen.1.symm hlen.2.symm]
      refine detailLoop_inv P doc.mins doc.maxs doc.dates 0 mes hmes ?_
      intro j d hj hp
      rw [Nat.zero_add]
      exact hw doc j d hget hj hp

theorem detailURL_cases (name : Str) : detailURL name = gruyereURL ∨ detailURL name = schiffenenURL := by
  unfold detailURL
  split
  · exact Or.inl rfl
  · exact Or.inr rfl

/-- A property of the measures that holds for the summary entries and for every entry a detail
pass can write holds for all measures of a successful result. -/
theorem GetLevel_measures_inv (P : Str → Measure → Prop) (client : Client) (doc : Document)
    (d0 d1 : Date) (lakes : Lakes)
    (hrows : rowLoop client d0 d1 doc.body 1 [] = Except.ok lakes)
    (hs0 : ∀ l, P (formatYMD d0) ⟨d0, l, l⟩) (hs1 : ∀ l, P (formatYMD d1) ⟨d1, l, l⟩)
    (hw : ∀ n url page j d, client n url = Except.ok page →
      (url = gruyereURL ∨ url = schiffenenURL) → j < page.dates.length →
      parseDMY (trimSpace (page.dates.getD j [])) = Except.ok d →
      P (formatYMD d) ⟨d, msm (page.mins.getD j []), msm (page.maxs.getD j [])⟩) :
    ∀ name lake k v, mapGet lakes name = some lake → mapGet lake.Measures k = some v → P k v := by
  have hsum : ∀ item k v, mapGet (summaryLake d0 d1 item).Measures k = some v → P k v := by
    intro item k v h
    rcases summaryLake_measures d0 d1 item k v h with ⟨hk, hv⟩ | ⟨hk, hv⟩
    · rw [hk, hv]; exact hs1 _
    · rw [hk, hv]; exact hs0 _
  have := rowLoop_inv (fun _ lake => ∀ k v, mapGet lake.Measures k = some v → P k v) client d0 d1
    doc.body (fun item _ _ => hsum item)
    (fun item n mes _ _ hd => by
      have h2 := getDetail_inv P client n (detailURL (rowName item))
        (summaryLake d0 d1 item).Measures (hsum item)
        (fun page j d hget hj hp => hw n _ page j d hget (detailURL_cases _) hj hp)
      rw [hd] at h2
      exact h2)
    1 [] lakes (fun name lake h => by cases h) hrows
  intro name lake k v hl hm
  exact this name lake hl k v hm

/-! ## Evaluation of `GetLevel` on example pages -/

theorem getDetail_fst_none (client : Client) (n : Nat) (url : Str) (page : Document)
    (mes : GoMap Measure) (hget : client n url = Except.ok page)
    (hmins : page.mins.length = page.dates.length) (hmaxs : page.maxs.length = page.dates.length)
    (hparse : ∀ t, t ∈ page.dates → ∃ d, parseDMY (trimSpace t) = Except.ok d) :
    getDetail client n url mes = (none, (getDetail client n url mes).2) := by
  have h1 : (getDetail client n url mes).1 = none := by
    by_contra hne
    rw [getDetail_of_ok client n url page mes hget hmins hmaxs] at hne
    obtain ⟨t, ht, hbad⟩ := (detailLoop_error_iff _ _ _ _ _).mp hne
    obtain ⟨d, hd⟩ := hparse t ht
    exact hbad d hd
  exact Prod.ext h1 rfl

theorem GetLevel_one_detail_row (h2 h3 : Str) (item : List Str) (page : Document) (d0 d1 : Date)
    (hp0 : parseDMY (trimSpace h2) = Except.ok d0) (hp1 : parseDMY (trimSpace h3) = Except.ok d1)
    (hrow : isDetailRow item = true)
    (hmins : page.mins.length = page.dates.length) (hmaxs : page.maxs.length = page.dates.length)
    (hparse : ∀ t, t ∈ page.dates → ∃ d, parseDMY (trimSpace t) = Except.ok d) :
    GetLevel (twoPages (overviewPage h2 h3 [item]) page)
      = Except.ok [(rowName item, { summaryLake d0 d1 item with
          Measures := (getDetail (twoPages (overviewPage h2 h3 [item]) page) 1
            (detailURL (rowName item)) (summaryLake d0 d1 item).Measures).2 })] := by
  rw [GetLevel_eq (twoPages (overviewPage h2 h3 [item]) page) (overviewPage h2 h3 [item]) d0 d1
    rfl hp0 hp1]
  have hb : (overviewPage h2 h3 [item]).body = [item] := rfl
  rw [hb, rowLoop_detail_ok _ _ _ _ _ _ _ _ hrow
    (getDetail_fst_none _ 1 _ page _ rfl hmins hmaxs hparse), rowLoop_nil, mapSet_nil]

theorem exRow_name : rowName exRow = gruyere := by decide

theorem exRow_detail : isDetailRow exRow = true := by decide

theorem exPlainRow_plain : isDetailRow exPlainRow = false := by decide

theorem parse_first_day : parseDMY (trimSpace "1.6.2023".toList) = Except.ok ⟨2023, 6, 1⟩ := by
  decide

theorem parse_second_day : parseDMY (trimSpace "2.6.2023".toList) = Except.ok ⟨2023, 6, 2⟩ := by
  decide

theorem exDetail_dates_parse :
    ∀ t, t ∈ exDetail.dates → ∃ d, parseDMY (trimSpace t) = Except.ok d := by
  intro t ht
  have ht2 : t ∈ ["1.6.2023".toList, "2.6.2023".toList] := ht
  rcases List.mem_cons.mp ht2 with h | h
  · exact ⟨_, by rw [h]; exact parse_first_day⟩
  · rcases List.mem_cons.mp h with h | h
    · exact ⟨_, by rw [h]; exact parse_second_day⟩
    · cases h

theorem one_date_parse (mins maxs : List Str) :
    ∀ t, t ∈ (detailPage ["1.6.2023".toList] mins maxs).dates →
      ∃ d, parseDMY (trimSpace t) = Except.ok d := by
  intro t ht
  have ht2 : t ∈ ["1.6.2023".toList] := ht
  rcases List.mem_cons.mp ht2 with h | h
  · exact ⟨_, by rw [h]; exact parse_first_day⟩
  · cases h

/-! ## Claims on `GetLevel` -/

/-- C10. Date key round trip: in every successful result of `GetLevel`, every key of every
`Measures` map is the `YYYY-MM-DD` rendering of the date of the measure stored under it, parsing
the key with the layout `2006-01-02` succeeds and yields that date, and that date is the one
parsed from a `D.M.YYYY` text of the source. -/
theorem GetLevel_key_roundtrip (client : Client) (lakes : Lakes)
    (h : GetLevel client = Except.ok lakes) :
    ∀ name lake k v, mapGet lakes name = some lake → mapGet lake.Measures k = some v →
      k = formatYMD v.Date ∧ parseYMD k = Except.ok v.Date ∧
      ∃ txt, parseDMY (trimSpace txt) = Except.ok v.Date := by
  obtain ⟨doc, d0, d1, -, h0, h1, hrows⟩ := GetLevel_ok client lakes h
  have hP := GetLevel_measures_inv
    (fun k v => k = formatYMD v.Date ∧ ∃ txt, parseDMY (trimSpace txt) = Except.ok v.Date)
    client doc d0 d1 lakes hrows (fun _ => ⟨rfl, _, h0⟩) (fun _ => ⟨rfl, _, h1⟩)
    (fun n url page j d _ _ _ hp => ⟨rfl, _, hp⟩)
  intro name lake k v hl hm
  obtain ⟨hk, txt, htxt⟩ := hP name lake k v hl hm
  refine ⟨hk, ?_, txt, htxt⟩
  rw [hk]
  exact parseYMD_formatYMD _ (parseDMY_valid _ _ htxt)

/-- C10, witness: the two scenarios of the specification; the date `1.6.2023` is stored under
`2023-06-01`. -/
theorem GetLevel_key_roundtrip_witness :
    GetLevel exClient = Except.ok [(gruyere, { summaryLake ⟨2023, 6, 1⟩ ⟨2023, 6, 2⟩ exRow with
      Measures := (getDetail exClient 1 gruyereURL
        (summaryLake ⟨2023, 6, 1⟩ ⟨2023, 6, 2⟩ exRow).Measures).2 })] ∧
    formatYMD ⟨2023, 6, 1⟩ = "2023-06-01".toList ∧
    ∀ name lake k v,
      mapGet [(gruyere, { summaryLake ⟨2023, 6, 1⟩ ⟨2023, 6, 2⟩ exRow with
        Measures := (getDetail exClient 1 gruyereURL
          (summaryLake ⟨2023, 6, 1⟩ ⟨2023, 6, 2⟩ exRow).Measures).2 })] name = some lake →
      mapGet lake.Measures k = some v →
      k = formatYMD v.Date ∧ parseYMD k = Except.ok v.Date ∧
      ∃ txt, parseDMY (trimSpace txt) = Except.ok v.Date := by
  have hG : GetLevel exClient = Except.ok [(gruyere,
      { summaryLake ⟨2023, 6, 1⟩ ⟨2023, 6, 2⟩ exRow with
        Measures := (getDetail exClient 1 gruyereURL
          (summaryLake ⟨2023, 6, 1⟩ ⟨2023, 6, 2⟩ exRow).Measures).2 })] :=
    GetLevel_one_detail_row "1.6.2023".toList "2.6.2023".toList exRow exDetail ⟨2023, 6, 1⟩
      ⟨2023, 6, 2⟩ parse_first_day parse_second_day exRow_detail rfl rfl exDetail_dates_parse
  exact ⟨hG, by decide, GetLevel_key_roundtrip exClient _ hG⟩

theorem exClientSwapped_level :
    GetLevel exClientSwapped = Except.ok [(gruyere,
      { summaryLake ⟨2023, 6, 1⟩ ⟨2023, 6, 2⟩ exRow with
        Measures := (getDetail exClientSwapped 1 gruyereURL
          (summaryLake ⟨2023, 6, 1⟩ ⟨2023, 6, 2⟩ exRow).Measures).2 })] :=
  GetLevel_one_detail_row "1.6.2023".toList "2.6.2023".toList exRow
    (detailPage ["1.6.2023".toList] ["701.5 msm".toList] ["700.5 msm".toList]) ⟨2023, 6, 1⟩
    ⟨2023, 6, 2⟩ parse_first_day parse_second_day exRow_detail rfl rfl (one_date_parse _ _)

/-- C1. The code at a failing input: the overview page of the first scenario and a detail page
whose only row has the minimum cell `701.5 msm` and the maximum cell `700.5 msm`. `GetLevel`
succeeds, and the measure of La Gruyère for `2023-06-01` has `Min = 701.5` and `Max = 700.5`, so
`Min ≤ Max` does not hold for it: `getDetail` stores both values as read, without comparing
them. -/
theorem GetLevel_min_above_max :
    ∃ lakes lake v, GetLevel exClientSwapped = Except.ok lakes ∧
      mapGet lakes gruyere = some lake ∧
      mapGet lake.Measures "2023-06-01".toList = some v ∧
      v.Min = 1403 / 2 ∧ v.Max = 1401 / 2 ∧ ¬ v.Min ≤ v.Max := by
  obtain ⟨m1, hm1, hlook, -, -⟩ := detail_merge_core exClientSwapped 1 gruyereURL
    (detailPage ["1.6.2023".toList] ["701.5 msm".toList] ["700.5 msm".toList])
    (fun _ => ⟨2023, 6, 1⟩) (summaryLake ⟨2023, 6, 1⟩ ⟨2023, 6, 2⟩ exRow).Measures rfl rfl rfl
    (by
      intro i hi
      have hi1 : i < 1 := hi
      have hi0 : i = 0 := by omega
      subst hi0
      exact parse_first_day)
  obtain ⟨j, -, hj, -, -, hget⟩ := hlook 0 (Nat.succ_pos 0)
  have hj1 : j < 1 := hj
  have hj0 : j = 0 := by omega
  subst hj0
  have hm2 : (getDetail exClientSwapped 1 gruyereURL
      (summaryLake ⟨2023, 6, 1⟩ ⟨2023, 6, 2⟩ exRow).Measures).2 = m1 := by rw [hm1]
  refine ⟨[(gruyere, { summaryLake ⟨2023, 6, 1⟩ ⟨2023, 6, 2⟩ exRow with
      Measures := (getDetail exClientSwapped 1 gruyereURL
        (summaryLake ⟨2023, 6, 1⟩ ⟨2023, 6, 2⟩ exRow).Measures).2 })],
    { summaryLake ⟨2023, 6, 1⟩ ⟨2023, 6, 2⟩ exRow with
      Measures := (getDetail exClientSwapped 1 gruyereURL
        (summaryLake ⟨2023, 6, 1⟩ ⟨2023, 6, 2⟩ exRow).Measures).2 },
    ⟨⟨2023, 6, 1⟩, msm "701.5 msm".toList, msm "700.5 msm".toList⟩,
    exClientSwapped_level, mapGet_cons_self _ _ _, ?_, ?_, ?_, ?_⟩
  · show mapGet (getDetail exClientSwapped 1 gruyereURL
      (summaryLake ⟨2023, 6, 1⟩ ⟨2023, 6, 2⟩ exRow).Measures).2 "2023-06-01".toList = _
    rw [hm2]
    exact hget
  · dsimp only
    exact msm_701_5
  · dsimp only
    exact msm_700_5
  · dsimp only
    rw [msm_700_5, msm_701_5]
    norm_num

theorem length_eq_of_same_keys (l1 l2 : List Str) (h1 : l1.Nodup) (h2 : l2.Nodup)
    (h : ∀ a, a ∈ l1 ↔ a ∈ l2) : l1.length = l2.length :=
  ((List.perm_ext_iff_of_nodup h1 h2).mpr h).length_eq

/-- C5, as amended. Summary pass of `GetLevel`: for an overview page whose two header dates
parse, a successful `GetLevel` returns a collection whose keys are exactly the names of the body
rows, each once: it has `N` records when the `N` rows have pairwise different names (a later row
replaces an earlier one of the same name). Every record whose name is not in the detail-pass set
has 2 entries in its `Measures` map when the two header dates are different days, and 1 entry
when they are the same day. -/
theorem GetLevel_records (client : Client) (doc : Document) (d0 d1 : Date) (lakes : Lakes)
    (hpage : client 0 pageURL = Except.ok doc)
    (h0 : parseDMY (trimSpace (eqText doc.header 2)) = Except.ok d0)
    (h1 : parseDMY (trimSpace (eqText doc.header 3)) = Except.ok d1)
    (h : GetLevel client = Except.ok lakes) :
    (mapKeys lakes).Nodup ∧
    (∀ name, name ∈ mapKeys lakes ↔ name ∈ doc.body.map rowName) ∧
    ((doc.body.map rowName).Nodup → lakes.length = doc.body.length) ∧
    (∀ name lake, mapGet lakes name = some lake → name ≠ gruyere → name ≠ schiffenen →
      lake.Measures.length = if d0 = d1 then 1 else 2) := by
  rw [GetLevel_eq client doc d0 d1 hpage h0 h1] at h
  obtain ⟨hk, hn⟩ := rowLoop_keys client d0 d1 doc.body 1 [] lakes h
  have hnodup : (mapKeys lakes).Nodup := hn List.nodup_nil
  have hkeys : ∀ name, name ∈ mapKeys lakes ↔ name ∈ doc.body.map rowName := by
    intro name
    rw [hk name]
    constructor
    · rintro (h2 | h2)
      · cases h2
      · exact h2
    · intro h2; exact Or.inr h2
  refine ⟨hnodup, hkeys, ?_, ?_⟩
  · intro hnd
    have e := length_eq_of_same_keys _ _ hnodup hnd hkeys
    unfold mapKeys at e
    rw [List.length_map, List.length_map] at e
    exact e
  · have := rowLoop_inv
      (fun name lake => name ≠ gruyere → name ≠ schiffenen →
        lake.Measures.length = if d0 = d1 then 1 else 2) client d0 d1 doc.body
      (fun item _ _ _ _ =>
        summaryLake_length d0 d1 item (parseDMY_valid _ _ h0) (parseDMY_valid _ _ h1))
      (fun item n mes _ hrow _ hg hs => by
        rcases (isDetailRow_iff item).mp hrow with e | e
        · exact absurd e hg
        · exact absurd e hs)
      1 [] lakes (fun name lake hl => by cases hl) h
    exact this

theorem exClientTwice_level :
    GetLevel exClientTwice
      = Except.ok [(rowName exPlainRow, summaryLake ⟨2023, 6, 1⟩ ⟨2023, 6, 1⟩ exPlainRow)] := by
  rw [GetLevel_eq exClientTwice
    (overviewPage "1.6.2023".toList "1.6.2023".toList [exPlainRow, exPlainRow]) ⟨2023, 6, 1⟩
    ⟨2023, 6, 1⟩ rfl parse_first_day parse_first_day]
  have hb : (overviewPage "1.6.2023".toList "1.6.2023".toList [exPlainRow, exPlainRow]).body
      = [exPlainRow, exPlainRow] := rfl
  rw [hb, rowLoop_plain _ _ _ _ _ _ _ exPlainRow_plain,
    rowLoop_plain _ _ _ _ _ _ _ exPlainRow_plain, rowLoop_nil, mapSet_nil, mapSet_cons_self]

/-- C5, witness: the overview page of the first scenario with the row of a lake that has no
detail page. -/
theorem GetLevel_records_witness :
    GetLevel (twoPages (overviewPage "1.6.2023".toList "2.6.2023".toList [exPlainRow]) exDetail)
      = Except.ok [(rowName exPlainRow, summaryLake ⟨2023, 6, 1⟩ ⟨2023, 6, 2⟩ exPlainRow)] ∧
    [(rowName exPlainRow, summaryLake ⟨2023, 6, 1⟩ ⟨2023, 6, 2⟩ exPlainRow)].length = 1 ∧
    (summaryLake ⟨2023, 6, 1⟩ ⟨2023, 6, 2⟩ exPlainRow).Measures.length = 2 := by
  have hG : GetLevel (twoPages (overviewPage "1.6.2023".toList "2.6.2023".toList [exPlainRow])
      exDetail)
      = Except.ok [(rowName exPlainRow, summaryLake ⟨2023, 6, 1⟩ ⟨2023, 6, 2⟩ exPlainRow)] := by
    rw [GetLevel_eq _ (overviewPage "1.6.2023".toList "2.6.2023".toList [exPlainRow])
      ⟨2023, 6, 1⟩ ⟨2023, 6, 2⟩ rfl parse_first_day parse_second_day]
    have hb : (overviewPage "1.6.2023".toList "2.6.2023".toList [exPlainRow]).body
        = [exPlainRow] := rfl
    rw [hb, rowLoop_plain _ _ _ _ _ _ _ exPlainRow_plain, rowLoop_nil, mapSet_nil]
  have h := GetLevel_records _ (overviewPage "1.6.2023".toList "2.6.2023".toList [exPlainRow])
    ⟨2023, 6, 1⟩ ⟨2023, 6, 2⟩ _ rfl parse_first_day parse_second_day hG
  refine ⟨hG, rfl, ?_⟩
  have h4 := h.2.2.2 (rowName exPlainRow) _ (mapGet_cons_self _ _ _) (by decide) (by decide)
  rw [if_neg (by decide)] at h4
  exact h4

/-- C5, counterexample to the claim as stated: an overview page whose body has 2 rows, both for
the lake Morat, and whose two header cells hold the same day. `GetLevel` succeeds with 1 record,
and that record, which is not in the detail-pass set, has 1 entry in its `Measures` map. -/
theorem GetLevel_records_counterexample :
    ∃ lakes lake, GetLevel exClientTwice = Except.ok lakes ∧
      [exPlainRow, exPlainRow].length = 2 ∧ lakes.length = 1 ∧
      mapGet lakes "Morat".toList = some lake ∧
      "Morat".toList ≠ gruyere ∧ "Morat".toList ≠ schiffenen ∧
      lake.Measures.length = 1 := by
  refine ⟨[(rowName exPlainRow, summaryLake ⟨2023, 6, 1⟩ ⟨2023, 6, 1⟩ exPlainRow)],
    summaryLake ⟨2023, 6, 1⟩ ⟨2023, 6, 1⟩ exPlainRow, exClientTwice_level, rfl, rfl, ?_,
    by decide, by decide, ?_⟩
  · have hn : rowName exPlainRow = "Morat".toList := by decide
    rw [hn]
    exact mapGet_cons_self _ _ _
  · rw [summaryLake_same_day]
    rfl

theorem exRow_cell1 : trimSpace (eqText exRow 1) = "750.0 msm".toList := by decide

theorem exRow_cell2 : trimSpace (eqText exRow 2) = "700.5 msm".toList := by decide

theorem exRow_cell3 : trimSpace (eqText exRow 3) = "701.0 msm".toList := by decide

theorem format_first_day : formatYMD ⟨2023, 6, 1⟩ = "2023-06-01".toList := by decide

theorem format_second_day : formatYMD ⟨2023, 6, 2⟩ = "2023-06-02".toList := by decide

/-- C6, as amended. Summary row assembly in `GetLevel`, for a body row `item` and header dates
`d0`, `d1`: the record has `Name` equal to the trimmed first cell with every `*` removed and
`MaxLevel = msm(trim c1)`; before any detail pass, `Measures[format(d1)] = {d1, l1, l1}` with
`l1 = msm(trim c3)`, and, when `d0` and `d1` are different days,
`Measures[format(d0)] = {d0, l0, l0}` with `l0 = msm(trim c2)` (on the same day the second
assignment replaces the first). One step of the loop stores the record under its `Name`: as it
is for a row outside the detail-pass set, with the map written by `getDetail` otherwise, unless
`getDetail` fails. -/
theorem summaryLake_row (t0 t1 : Str) (d0 d1 : Date) (item : List Str)
    (h0 : parseDMY (trimSpace t0) = Except.ok d0) (h1 : parseDMY (trimSpace t1) = Except.ok d1) :
    (summaryLake d0 d1 item).Name = removeStars (trimSpace (eqText item 0)) ∧
    (summaryLake d0 d1 item).MaxLevel = msm (trimSpace (eqText item 1)) ∧
    mapGet (summaryLake d0 d1 item).Measures (formatYMD d1)
      = some ⟨d1, msm (trimSpace (eqText item 3)), msm (trimSpace (eqText item 3))⟩ ∧
    (d0 ≠ d1 → mapGet (summaryLake d0 d1 item).Measures (formatYMD d0)
      = some ⟨d0, msm (trimSpace (eqText item 2)), msm (trimSpace (eqText item 2))⟩) ∧
    (∀ (client : Client) (rest : List (List Str)) (n : Nat) (result : Lakes),
      (isDetailRow item = false ∧
        rowLoop client d0 d1 (item :: rest) n result
          = rowLoop client d0 d1 rest n
              (mapSet result (summaryLake d0 d1 item).Name (summaryLake d0 d1 item))) ∨
      (isDetailRow item = true ∧ ∃ err mes,
        getDetail client n (detailURL (rowName item)) (summaryLake d0 d1 item).Measures
          = (some err, mes) ∧
        rowLoop client d0 d1 (item :: rest) n result = Except.error err) ∨
      (isDetailRow item = true ∧ ∃ mes,
        getDetail client n (detailURL (rowName item)) (summaryLake d0 d1 item).Measures
          = (none, mes) ∧
        rowLoop client d0 d1 (item :: rest) n result
          = rowLoop client d0 d1 rest (n + 1)
              (mapSet result (summaryLake d0 d1 item).Name
                { summaryLake d0 d1 item with Measures := mes }))) := by
  refine ⟨rfl, rfl, summaryLake_get_second d0 d1 item, ?_, ?_⟩
  · intro hne
    exact summaryLake_get_first d0 d1 item
      (fun e => hne (formatYMD_injective d0 d1 (parseDMY_valid _ _ h0) (parseDMY_valid _ _ h1) e))
  · intro client rest n result
    exact rowLoop_cons_cases client d0 d1 item rest n result

/-- C6, witness: header dates `1.6.2023`, `2.6.2023` and the row `La Gruyère*`, `750.0 msm`,
`700.5 msm`, `701.0 msm`. -/
theorem summaryLake_row_witness :
    (summaryLake ⟨2023, 6, 1⟩ ⟨2023, 6, 2⟩ exRow).Name = "La Gruyère".toList ∧
    (summaryLake ⟨2023, 6, 1⟩ ⟨2023, 6, 2⟩ exRow).MaxLevel = 750 ∧
    mapGet (summaryLake ⟨2023, 6, 1⟩ ⟨2023, 6, 2⟩ exRow).Measures "2023-06-01".toList
      = some ⟨⟨2023, 6, 1⟩, 1401 / 2, 1401 / 2⟩ ∧
    mapGet (summaryLake ⟨2023, 6, 1⟩ ⟨2023, 6, 2⟩ exRow).Measures "2023-06-02".toList
      = some ⟨⟨2023, 6, 2⟩, 701, 701⟩ := by
  obtain ⟨hn, hm, hs, hf, -⟩ := summaryLake_row "1.6.2023".toList "2.6.2023".toList
    ⟨2023, 6, 1⟩ ⟨2023, 6, 2⟩ exRow parse_first_day parse_second_day
  have hf2 := hf (by decide)
  rw [exRow_cell1, msm_750_0] at hm
  rw [exRow_cell3, msm_701_0, format_second_day] at hs
  rw [exRow_cell2, msm_700_5, format_first_day] at hf2
  have hname : removeStars (trimSpace (eqText exRow 0)) = "La Gruyère".toList := by decide
  rw [hname] at hn
  exact ⟨hn, hm, hf2, hs⟩

/-- C6, counterexample to the claim as stated: both header cells hold `1.6.2023` and the row has
the readings `700.5 msm` and `701.0 msm`. The entry for that day holds the second reading,
701.0, and not `{date0, 700.5, 700.5}`. -/
theorem summaryLake_row_counterexample :
    parseDMY (trimSpace "1.6.2023".toList) = Except.ok ⟨2023, 6, 1⟩ ∧
    msm (trimSpace (eqText exRow 2)) = 1401 / 2 ∧
    mapGet (summaryLake ⟨2023, 6, 1⟩ ⟨2023, 6, 1⟩ exRow).Measures (formatYMD ⟨2023, 6, 1⟩)
      = some ⟨⟨2023, 6, 1⟩, 701, 701⟩ ∧
    mapGet (summaryLake ⟨2023, 6, 1⟩ ⟨2023, 6, 1⟩ exRow).Measures (formatYMD ⟨2023, 6, 1⟩)
      ≠ some ⟨⟨2023, 6, 1⟩, msm (trimSpace (eqText exRow 2)), msm (trimSpace (eqText exRow 2))⟩ := by
  have h2 : msm (trimSpace (eqText exRow 2)) = 1401 / 2 := by rw [exRow_cell2, msm_700_5]
  have h3 : mapGet (summaryLake ⟨2023, 6, 1⟩ ⟨2023, 6, 1⟩ exRow).Measures (formatYMD ⟨2023, 6, 1⟩)
      = some ⟨⟨2023, 6, 1⟩, 701, 701⟩ := by
    have := summaryLake_get_second ⟨2023, 6, 1⟩ ⟨2023, 6, 1⟩ exRow
    rw [exRow_cell3, msm_701_0] at this
    exact this
  refine ⟨parse_first_day, h2, h3, ?_⟩
  rw [h3, h2]
  intro e
  injection e with e
  injection e with _ e2 _
  norm_num at e2

/-- C8. Detail pass cardinality check: when the three cell sequences of a detail page are not all
of the same length, `getDetail` returns the error `array size mismatch` and leaves the map as it
was; and when this happens for a row of the overview page (the rows before it having been
processed without error), `GetLevel` returns that error and no collection. -/
theorem GetLevel_size_mismatch (client : Client) (doc : Document) (d0 d1 : Date)
    (pre rest : List (List Str)) (item : List Str) (r : Lakes) (page : Document)
    (mes : GoMap Measure)
    (hpage : client 0 pageURL = Except.ok doc)
    (h0 : parseDMY (trimSpace (eqText doc.header 2)) = Except.ok d0)
    (h1 : parseDMY (trimSpace (eqText doc.header 3)) = Except.ok d1)
    (hbody : doc.body = pre ++ item :: rest)
    (hpre : rowLoop client d0 d1 pre 1 [] = Except.ok r)
    (hrow : isDetailRow item = true)
    (hget : client (1 + detailCount pre) (detailURL (rowName item)) = Except.ok page)
    (hlen : page.dates.length ≠ page.mins.length ∨ page.dates.length ≠ page.maxs.length) :
    getDetail client (1 + detailCount pre) (detailURL (rowName item)) mes
      = (some sizeMismatch, mes) ∧
    sizeMismatch = Error.new "array size mismatch".toList ∧
    GetLevel client = Except.error sizeMismatch := by
  refine ⟨getDetail_of_mismatch client _ _ page mes hget hlen, rfl, ?_⟩
  rw [GetLevel_eq client doc d0 d1 hpage h0 h1, hbody, rowLoop_append client d0 d1 pre _ 1 [] r hpre]
  exact rowLoop_detail_error client d0 d1 item rest _ r sizeMismatch _ hrow
    (getDetail_of_mismatch client _ _ page _ hget hlen)

/-- C8, witness: the overview page of the first scenario and a detail page with 2 dates and 1
minimum value. -/
theorem GetLevel_size_mismatch_witness :
    getDetail exClientMismatch 1 gruyereURL [] = (some sizeMismatch, []) ∧
    GetLevel exClientMismatch = Except.error (Error.new "array size mismatch".toList) := by
  have h := GetLevel_size_mismatch exClientMismatch exOverview ⟨2023, 6, 1⟩ ⟨2023, 6, 2⟩ [] []
    exRow [] (detailPage ["1.6.2023".toList, "2.6.2023".toList] ["700.1 msm".toList]
      ["701.1 msm".toList, "701.2 msm".toList]) [] rfl parse_first_day parse_second_day rfl
    (rowLoop_nil _ _ _ _ _) exRow_detail rfl (Or.inl (by decide))
  exact ⟨h.1, h.2.2⟩

end Gelakelevel
